import Mathlib

/-!
# Verification of the KNIME workflow-to-SQL converter (column-flow resolver)

Shallow embedding of the JavaScript sources of `knime-sql-converter`:
the xml-js compact settings-tree data model, the settings accessors
(`getEntryValue`, `findConfigByKey`, `getArrayValuesFromConfig`),
the workflow graph builder and topological sort (`parseWorkflowKnime`),
the per-node column computation of `processWorkflowData` / `getColumnNodes`
(KNIMEViewer.jsx), and the joiner predecessor/port resolver
(`convertJoinerJSONToSQL.js`).

JavaScript conventions used throughout the embedding:
* an absent object property is `Option.none`;
* `xml-js` compact children that may be "absent | single object | array"
  are an explicit three-way `OneOrMany`;
* a JS value that may be `null | boolean | string` is `JsVal`;
* a thrown exception is `Except.error`;
* `NaN` node ids (from `parseInt` failures) are `Option.none` ids: as object
  keys `NaN` stringifies to the key "NaN", equal to itself and distinct from
  every numeric key, exactly like an extra id value.
-/

/-- The `_attributes` object of an xml-js compact element.  Each attribute is
optional, matching absent JS properties. -/
structure Attrs where
  key : Option String
  value : Option String
  type : Option String
  isnull : Option String
deriving DecidableEq, Repr

/-- An `<entry>` element in compact form: only its `_attributes` matter to the
sources ( `e._attributes` may be absent on malformed input). -/
structure Entry where
  _attributes : Option Attrs
deriving DecidableEq, Repr

/-- An xml-js compact child property: absent, a single object, or an array
(possibly empty — note an empty array is truthy in JS while `absent` is not,
so the three cases are observationally distinct in the sources). -/
inductive OneOrMany (α : Type) where
  | absent : OneOrMany α
  | one : α → OneOrMany α
  | many : List α → OneOrMany α
deriving DecidableEq, Repr

/-- `Array.isArray(x) ? x : [x]` — normalization applied by every accessor
after a truthiness guard. -/
def OneOrMany.wrap {α : Type} : OneOrMany α → List α
  | .absent => []
  | .one a => [a]
  | .many l => l

/-- A `<config>` element in compact form: attributes, `entry` children and
nested `config` children. -/
inductive ConfigNode where
  | mk : Option Attrs → OneOrMany Entry → OneOrMany ConfigNode → ConfigNode

/-- The `_attributes` property of a config element. -/
def ConfigNode.attrsOf : ConfigNode → Option Attrs
  | .mk a _ _ => a

/-- The `entry` property of a config element. -/
def ConfigNode.entryOf : ConfigNode → OneOrMany Entry
  | .mk _ e _ => e

/-- The `config` property of a config element. -/
def ConfigNode.configOf : ConfigNode → OneOrMany ConfigNode
  | .mk _ _ c => c

/-- A JS value that is `null`, a boolean, or a string (the return type of the
common `getEntryValue`). -/
inductive JsVal where
  | nullv : JsVal
  | boolv : Bool → JsVal
  | strv : String → JsVal
deriving DecidableEq, Repr

/-- JS truthiness of a `JsVal` (`null`, `false` and `""` are falsy). -/
def JsVal.truthy : JsVal → Bool
  | .nullv => false
  | .boolv b => b
  | .strv s => s ≠ ""

/-- The string payload of a `JsVal`, if it is a string.  Where the sources
push a truthy entry value into a list of column-name strings, a truthy
non-string value (only producible by an `xboolean`-typed entry) has no
representation in our `List String` schemas and is dropped; no claim
depends on that corner. -/
def JsVal.str? : JsVal → Option String
  | .strv s => some s
  | _ => none

/-- Predicate used by the accessors' `find` calls:
`e._attributes && e._attributes.key === key`. -/
def entryKeyIs (key : String) (e : Entry) : Bool :=
  match e._attributes with
  | some a => a.key = some key
  | none => false

/-- Embeds `getEntryValue(entryProp, key)` of `KNIMEViewer.jsx` (lines 38-49),
identical to the copies in `convertColumnMergerNodeToSQL.js` /
`convertExcelReaderNodeToSQL.js` and to the `common/getEntryValue` module they
import:
missing property, collection or key → `null`; `isnull === "true"` → `null`;
`type === "xboolean"` → `value === "true"`; otherwise `value || null`. -/
def getEntryValue (entryProp : OneOrMany Entry) (key : String) : JsVal :=
  match entryProp with
  | .absent => .nullv
  | ep =>
    match ep.wrap.find? (entryKeyIs key) with
    | none => .nullv
    | some e =>
      match e._attributes with
      | none => .nullv
      | some a =>
        if a.isnull = some "true" then .nullv
        else if a.type = some "xboolean" then .boolv (a.value = some "true")
        else
          match a.value with
          | none => .nullv
          | some s => if s = "" then .nullv else .strv s

/-- Embeds the local `getEntryValue(node, key)` of `parseWorkflowKnime.js`
(lines 9-14): it returns `found._attributes.value` raw (no `isnull` /
`xboolean` handling) or `null`. -/
def getEntryValueWorkflow (node : ConfigNode) (key : String) : Option String :=
  match node.entryOf with
  | .absent => none
  | ep =>
    match ep.wrap.find? (entryKeyIs key) with
    | none => none
    | some e =>
      match e._attributes with
      | some a => a.value
      | none => none

/-- Predicate `node._attributes && node._attributes.key === key` on config
elements. -/
def configKeyIs (key : String) (c : ConfigNode) : Bool :=
  match c.attrsOf with
  | some a => a.key = some key
  | none => false

/-- Embeds `findConfigByKey(config, key)`: both the version local to
`parseWorkflowKnime.js` (lines 24-34) and the wrapped-`find` arrow versions in
the converter files / `common/findConfigByKey` have the same behaviour:
absent → `null`; single matching object → itself; array → first match. -/
def findConfigByKey (config : OneOrMany ConfigNode) (key : String) :
    Option ConfigNode :=
  match config with
  | .absent => none
  | .one c => if configKeyIs key c then some c else none
  | .many l => l.find? (configKeyIs key)

/-- Embeds `getArrayValuesFromConfig(configNode)` of
`src/common/getArrayValuesFromConfig.js` (lines 1-17): keep every entry
whose `_attributes` exist, whose key is not `"array-size"` and whose value
is truthy (present and non-empty), and return the values in entry order. -/
def getArrayValuesFromConfig (configNode : Option ConfigNode) : List String :=
  match configNode with
  | none => []
  | some c =>
    match c.entryOf with
    | .absent => []
    | ep =>
      ep.wrap.filterMap fun e =>
        match e._attributes with
        | some a =>
          if a.key ≠ some "array-size" ∧ a.value ≠ none ∧ a.value ≠ some ""
          then a.value else none
        | none => none

/-- The stored value of an entry, defaulting to `""`; used only to phrase
theorems about well-shaped entries whose value is known to be present. -/
def entryValueD (e : Entry) : String :=
  match e._attributes with
  | some a => a.value.getD ""
  | none => ""

/-- The keep-or-drop function applied entrywise by
`getArrayValuesFromConfig`. -/
def arrayEntryKeep (e : Entry) : Option String :=
  match e._attributes with
  | some a =>
    if a.key ≠ some "array-size" ∧ a.value ≠ none ∧ a.value ≠ some ""
    then a.value else none
  | none => none

/-- A concrete `included_names`-style array config whose entries are the size
field, one positional entry `"0" → "a"`, and a stray metadata entry
`"stray" → "m"` that does not match the positional-string shape. -/
def strayArrayCfg : ConfigNode :=
  .mk (some ⟨some "included_names", none, none, none⟩)
    (.many [⟨some ⟨some "array-size", some "1", some "xint", none⟩⟩,
            ⟨some ⟨some "0", some "a", some "xstring", none⟩⟩,
            ⟨some ⟨some "stray", some "m", some "xstring", none⟩⟩])
    .absent


/-- JS `Set.prototype.add` on an insertion-ordered set represented as a
duplicate-free list: adding an element already present does not move it. -/
def jsSetInsert (l : List String) (a : String) : List String :=
  if a ∈ l then l else l ++ [a]

/-- `Array.from(new Set(l))`: insertion-ordered deduplication keeping the
first occurrence of each element. -/
def jsSetOfList (l : List String) : List String :=
  l.foldl jsSetInsert []

/-- Embeds the final-output-column computation of `processWorkflowData`
(`KNIMEViewer.jsx` lines 377-404): a node with a non-empty
`initialOutputColumns` (a reader) keeps exactly those columns; otherwise the
calculated input columns are filtered by the removal set, turned into a JS
`Set`, and every added column is inserted into that set. -/
def computeFinalColumns (initialOutputColumns addedColumns removedColumns
    calculatedInputColumns : List String) : List String :=
  if initialOutputColumns.length > 0 then
    initialOutputColumns
  else
    let currentColumns :=
      calculatedInputColumns.filter (fun col => ¬ col ∈ removedColumns)
    addedColumns.foldl jsSetInsert (jsSetOfList currentColumns)

/-- Leading decimal digits of a character list, if any. -/
def parseDigits (cs : List Char) : Option Nat :=
  let ds := cs.takeWhile (fun c => c.isDigit)
  if ds = [] then none
  else some (ds.foldl (fun n c => n * 10 + (c.toNat - 48)) 0)

/-- Model of `parseInt(x, 10)`: skip leading whitespace, optional sign, then
leading decimal digits; `NaN` is `none` (an absent JS input stringifies to
"undefined"/"null", which has no leading digits, hence also `NaN`). -/
def jsParseInt (s : Option String) : Option Int :=
  match s with
  | none => none
  | some str =>
    let cs := str.data.dropWhile
      (fun c => c = ' ' ∨ c = '\t' ∨ c = '\n' ∨ c = '\r')
    match cs with
    | '-' :: rest => (parseDigits rest).map (fun n => -(n : Int))
    | '+' :: rest => (parseDigits rest).map (fun n => (n : Int))
    | _ => (parseDigits cs).map (fun n => (n : Int))

/-- `findConfigByKey` called with a JS value as key (the reader passes
`fileName` there): `===` between a string attribute and a non-string value is
always false, so only a string key can match. -/
def findConfigByKeyJs (config : OneOrMany ConfigNode) (key : JsVal) :
    Option ConfigNode :=
  match key with
  | .strv s => findConfigByKey config s
  | _ => none

/-- Factory id of the Excel reader node. -/
def EXCEL_FACTORY : String :=
  "org.knime.ext.poi3.node.io.filehandling.excel.reader.ExcelTableReaderNodeFactory"

/-- Factory id of the CSV reader node. -/
def CSV_FACTORY : String :=
  "org.knime.base.node.io.filehandling.csv.reader.CSVTableReaderNodeFactory"

/-- Factory id of the column filter node. -/
def COLFILTER_FACTORY : String :=
  "org.knime.base.node.preproc.filter.column.DataColumnSpecFilterNodeFactory"

/-- Factory id of the row filter node. -/
def ROWFILTER_FACTORY : String :=
  "org.knime.base.node.preproc.filter.row3.RowFilterNodeFactory"

/-- Factory id of the column merger node. -/
def COLMERGER_FACTORY : String :=
  "org.knime.base.node.preproc.columnmerge.ColumnMergerNodeFactory"

/-- Factory id of the string-to-number node. -/
def S2N_FACTORY : String :=
  "org.knime.base.node.preproc.colconvert.stringtonumber2.StringToNumber2NodeFactory"

/-- Factory id of the legacy joiner node. -/
def JOINER_FACTORY : String :=
  "org.knime.base.node.preproc.joiner.JoinerNodeFactory"

/-- Factory id of the joiner3 node. -/
def JOINER3_FACTORY : String :=
  "org.knime.base.node.preproc.joiner3.Joiner3NodeFactory"

/-- Result record of `getColumnNodes`. -/
structure ColumnNodesResult where
  finalColumns : List String
  addedColumns : List String
  removedColumns : List String
deriving DecidableEq, Repr

/-- File-name extraction of the reader branch of `getColumnNodes`
(`getColumnNodes.js` lines 48-61): the nested `settings/file_selection/path`
config entry, or, when that is falsy, the flat `path` entry of the settings
block. -/
def readerFileName (m : ConfigNode) : JsVal :=
  let settingsNode := findConfigByKey m.configOf "settings"
  let fileName0 : JsVal :=
    match settingsNode with
    | some sn =>
      match sn.configOf with
      | .absent => .strv ""
      | snc =>
        match findConfigByKey snc "file_selection" with
        | some fs =>
          match fs.configOf with
          | .absent => .strv ""
          | fsc =>
            match findConfigByKey fsc "path" with
            | some pn => getEntryValue pn.entryOf "path"
            | none => .strv ""
        | none => .strv ""
    | none => .strv ""
  if ¬ fileName0.truthy then
    match settingsNode with
    | some sn => getEntryValue sn.entryOf "path"
    | none => fileName0
  else fileName0

/-- Column extraction of the reader branch of `getColumnNodes` (lines 63-99):
the `name` entries of the numerically-keyed children of the
`individual_specs` spec matching the file name. -/
def readerExtractedColumns (m : ConfigNode) (fileName : JsVal) : List String :=
  match findConfigByKey m.configOf "table_spec_config_Internals" with
  | some ts =>
    match ts.configOf with
    | .absent => []
    | tsc =>
      match findConfigByKey tsc "individual_specs" with
      | some isp =>
        match isp.configOf with
        | .absent => []
        | ispc =>
          match findConfigByKeyJs ispc fileName with
          | some fsp =>
            match fsp.configOf with
            | .absent => []
            | fspc =>
              fspc.wrap.filterMap (fun colNode =>
                match colNode.attrsOf with
                | some a =>
                  if (jsParseInt a.key).isSome then
                    let colName := getEntryValue colNode.entryOf "name"
                    if colName.truthy then colName.str? else none
                  else none
                | none => none)
          | none => []
      | none => []
  | none => []

/-- The reader branch of `getColumnNodes` (`getColumnNodes.js` lines 42-105):
extract the file name from the settings block, then read the column names
from the matching `individual_specs` file spec; a missing file name is an
error (`null`), a missing table spec merely yields no columns. -/
def readerColumns (modelNode : Option ConfigNode) : Option ColumnNodesResult :=
  match modelNode with
  | none => none
  | some m =>
    let fileName := readerFileName m
    if fileName.truthy then
      some ⟨readerExtractedColumns m fileName, [], []⟩
    else
      none

/-- The column-filter branch of `getColumnNodes` (lines 111-158): final
columns are the configured included names minus the excluded names; removed
columns are the excluded names; missing model or `column-filter` config
yields the empty result. -/
def columnFilterColumns (modelNode : Option ConfigNode) :
    Option ColumnNodesResult :=
  match modelNode with
  | none => some ⟨[], [], []⟩
  | some m =>
    match findConfigByKey m.configOf "column-filter" with
    | none => some ⟨[], [], []⟩
    | some cf =>
      match cf.configOf with
      | .absent => some ⟨[], [], []⟩
      | cfc =>
        let includedConfig :=
          getArrayValuesFromConfig (findConfigByKey cfc "included_names")
        let excludedConfig :=
          getArrayValuesFromConfig (findConfigByKey cfc "excluded_names")
        some ⟨includedConfig.filter (fun col => ¬ col ∈ excludedConfig),
              [], excludedConfig⟩

/-- The column-merger branch of `getColumnNodes` (lines 165-233), which the
row-filter case also falls into because its `case` label has no body or
`break` in the source: added/removed columns are derived from the
placement mode only; `finalColumns` is left empty (indeterminable without
input). -/
def columnMergerColumns (modelNode : Option ConfigNode) :
    Option ColumnNodesResult :=
  match modelNode with
  | none => some ⟨[], [], []⟩
  | some m =>
    match m.entryOf with
    | .absent => some ⟨[], [], []⟩
    | ment =>
      let primaryCol := getEntryValue ment "primaryColumn"
      let secondaryCol := getEntryValue ment "secondaryColumn"
      let outputPlacement := getEntryValue ment "outputPlacement"
      let outputName := getEntryValue ment "outputName"
      if ¬ (primaryCol.truthy ∧ secondaryCol.truthy ∧
          outputPlacement.truthy) then
        some ⟨[], [], []⟩
      else
        let addedColumns : List String :=
          if outputPlacement = .strv "AppendAsNewColumn" then
            if outputName.truthy then outputName.str?.toList else []
          else []
        let t1 : List String :=
          if outputPlacement = .strv "ReplacePrimary"
              ∨ outputPlacement = .strv "ReplaceBoth" then
            match primaryCol.str? with
            | some s => jsSetInsert [] s
            | none => []
          else []
        let t2 : List String :=
          if outputPlacement = .strv "ReplaceSecondary"
              ∨ outputPlacement = .strv "ReplaceBoth" then
            match secondaryCol.str? with
            | some s => jsSetInsert t1 s
            | none => t1
          else t1
        some ⟨[], addedColumns, t2⟩

/-- Embeds `getColumnNodes(nodeConfig, inputColumnNames)` of
`src/functions/getColumnNodes.js` (lines 21-270): dispatch on the factory
entry.  The row-filter factory shares the column-merger branch (fall-through
`case` in the source); string-to-number, both joiner factories and every
unrecognized factory are treated as pass-through. -/
def getColumnNodes (nodeConfigOpt : Option ConfigNode)
    (inputColumnNames : Option (List String)) : Option ColumnNodesResult :=
  match nodeConfigOpt with
  | none => none
  | some nodeConfig =>
    match nodeConfig.entryOf with
    | .absent => none
    | _ =>
      let factory := getEntryValue nodeConfig.entryOf "factory"
      if ¬ factory.truthy then none
      else
        let modelNode := findConfigByKey nodeConfig.configOf "model"
        let inputCols : List String :=
          match inputColumnNames with
          | some l => l
          | none => []
        if factory = .strv EXCEL_FACTORY ∨ factory = .strv CSV_FACTORY then
          readerColumns modelNode
        else if factory = .strv COLFILTER_FACTORY then
          columnFilterColumns modelNode
        else if factory = .strv ROWFILTER_FACTORY
            ∨ factory = .strv COLMERGER_FACTORY then
          columnMergerColumns modelNode
        else if factory = .strv S2N_FACTORY then
          some ⟨inputCols, [], []⟩
        else if factory = .strv JOINER_FACTORY
            ∨ factory = .strv JOINER3_FACTORY then
          some ⟨inputCols, [], []⟩
        else
          some ⟨inputCols, [], []⟩

/-- A concrete CSV-reader settings config that yields a file name but no
table spec, hence an empty extracted column list. -/
def csvNoColsCfg : ConfigNode :=
  .mk none
    (.many [⟨some ⟨some "factory", some CSV_FACTORY, some "xstring", none⟩⟩])
    (.one (.mk (some ⟨some "model", none, none, none⟩)
      (.many [])
      (.one (.mk (some ⟨some "settings", none, none, none⟩)
        (.many [⟨some ⟨some "path", some "f.csv", some "xstring", none⟩⟩])
        .absent))))

/-- A concrete CSV-reader settings config with a file name and a one-column
table spec for that file. -/
def csvColsCfg : ConfigNode :=
  .mk none
    (.many [⟨some ⟨some "factory", some CSV_FACTORY, some "xstring", none⟩⟩])
    (.one (.mk (some ⟨some "model", none, none, none⟩)
      (.many [])
      (.many [
        .mk (some ⟨some "settings", none, none, none⟩)
          (.many [⟨some ⟨some "path", some "f.csv", some "xstring", none⟩⟩])
          .absent,
        .mk (some ⟨some "table_spec_config_Internals", none, none, none⟩)
          (.many [])
          (.one (.mk (some ⟨some "individual_specs", none, none, none⟩)
            (.many [])
            (.one (.mk (some ⟨some "f.csv", none, none, none⟩)
              (.many [])
              (.one (.mk (some ⟨some "0", none, none, none⟩)
                (.many [⟨some ⟨some "name", some "colA", some "xstring",
                  none⟩⟩])
                .absent))))))])))



/-- A connection object in a processed node's `nextNodes` array, as expected
by `findJoinerPredecessorDetails` (`convertJoinerJSONToSQL.js` lines 9-21). -/
structure JoinConn where
  targetNodeId : Int
  sourcePortIndex : Option Int
  targetPortIndex : Option Int
deriving DecidableEq, Repr

/-- A processed node as consumed by the joiner predecessor resolver: `id`,
`sqlAlias`, `nodes` (output schema) and `nextNodes` (connection objects).
The latter three may be absent (the source checks `!fullNodeDetail.sqlAlias`
and `Array.isArray(...)` on both `nodes` and `nextNodes`). -/
structure PNode where
  id : Int
  sqlAlias : Option String
  nodes : Option (List String)
  nextNodes : Option (List JoinConn)
deriving DecidableEq, Repr

/-- A resolved predecessor record (id, SQL alias, schema). -/
structure PredDetail where
  id : Int
  sqlAlias : String
  columns : List String
deriving DecidableEq, Repr

/-- The state of the `leftInputDetail` / `rightInputDetail` variables:
`null`, the string `"error"`, or a filled detail record. -/
inductive Slot where
  | jnull : Slot
  | jerror : Slot
  | detail : PredDetail → Slot
deriving DecidableEq, Repr

/-- A `Slot` as the function's final `left`/`right` output component. -/
def Slot.toOption : Slot → Option PredDetail
  | .detail d => some d
  | _ => none

/-- Left/right accumulator of the `forEach` in
`findJoinerPredecessorDetails`. -/
structure JoinerSlots where
  left : Slot
  right : Slot
deriving DecidableEq, Repr

/-- One iteration of the `forEach` over `allProcessedNodes`
(`convertJoinerJSONToSQL.js` lines 30-103): find the first connection of `p`
to the joiner; a missing `targetPortIndex` overwrites the left slot with the
error marker (the source only skips the write when the slot already holds
it); otherwise look the predecessor up again by id in the full list,
validate `sqlAlias` (truthy) and `nodes` (an array), and assign the detail
to the left slot on port 0, to the right slot on port 1; any other port
leaves both slots unchanged (warning only). -/
def joinerStep (allNodes : List PNode) (currentId : Int)
    (st : JoinerSlots) (p : PNode) : JoinerSlots :=
  match p.nextNodes with
  | none => st
  | some conns =>
    match conns.find? (fun c => c.targetNodeId = currentId) with
    | none => st
    | some conn =>
      match conn.targetPortIndex with
      | none => { st with left := .jerror }
      | some port =>
        match allNodes.find? (fun n => n.id = p.id) with
        | none => { st with left := .jerror }
        | some fullNode =>
          match fullNode.sqlAlias, fullNode.nodes with
          | some alias0, some cols =>
            if alias0 = "" then { st with left := .jerror }
            else
              if port = 0 then
                { st with left := .detail ⟨fullNode.id, alias0, cols⟩ }
              else if port = 1 then
                { st with right := .detail ⟨fullNode.id, alias0, cols⟩ }
              else st
          | _, _ => { st with left := .jerror }

/-- Embeds `findJoinerPredecessorDetails(currentNodeId, allProcessedNodes)`
(`convertJoinerJSONToSQL.js` lines 23-111): fold the per-node step over the
processed nodes; if either slot holds the error marker the result is
`{left: null, right: null}`, otherwise the slots' details (or `null`). -/
def findJoinerPredecessorDetails (currentNodeId : Int)
    (allProcessedNodes : List PNode) :
    Option PredDetail × Option PredDetail :=
  let st := allProcessedNodes.foldl
    (joinerStep allProcessedNodes currentNodeId) ⟨.jnull, .jnull⟩
  if st.left = .jerror ∨ st.right = .jerror then (none, none)
  else (st.left.toOption, st.right.toOption)

/-- The predecessor-resolution gate of `convertJoinerNodeToSQL`
(`convertJoinerJSONToSQL.js` lines 149-156): `true` means the converter
returns an error string and generates no SQL (`!leftInput || !rightInput`).
-/
def convertJoinerNodeToSQLGate (currentNodeId : Int)
    (allProcessedNodes : List PNode) : Bool :=
  let lr := findJoinerPredecessorDetails currentNodeId allProcessedNodes
  lr.1 = none ∨ lr.2 = none

/-- A processed node whose connection to joiner node 9 is missing its
`targetPortIndex`. -/
def nodeM : PNode := ⟨3, some "M", some [], some [⟨9, none, none⟩]⟩

/-- A processed node connected to joiner node 9 on target port 0. -/
def nodeA : PNode :=
  ⟨1, some "A", some ["id", "name"], some [⟨9, some 0, some 0⟩]⟩

/-- A processed node connected to joiner node 9 on target port 1. -/
def nodeB : PNode :=
  ⟨2, some "B", some ["id", "amount"], some [⟨9, some 0, some 1⟩]⟩



/-- A JS node id as used by `parseWorkflowKnime`: `parseInt` of an entry
value, with `none` modelling `NaN`.  As a JS object key `NaN` stringifies to
"NaN", equal to itself and distinct from every numeric key, so it behaves
like one extra id value. -/
abbrev JsId := Option Int

/-- A workflow node record built by `parseWorkflowKnime` (lines 78-86), with
the `order` field assigned later during the topological sort. -/
structure WNode where
  id : JsId
  settingsFile : Option String
  nodeType : Option String
  nextNodes : List JsId
  order : Option Nat
deriving DecidableEq, Repr

/-- A connection record `{sourceID, destID}` (lines 97-101). -/
structure WConn where
  sourceID : JsId
  destID : JsId
deriving DecidableEq, Repr

/-- Node construction from one node config (lines 78-85). -/
def mkWNode (nc : ConfigNode) : WNode :=
  { id := jsParseInt (getEntryValueWorkflow nc "id")
    settingsFile := getEntryValueWorkflow nc "node_settings_file"
    nodeType := getEntryValueWorkflow nc "node_type"
    nextNodes := []
    order := none }

/-- Connection construction from one connection config (lines 97-100). -/
def mkWConn (cc : ConfigNode) : WConn :=
  { sourceID := jsParseInt (getEntryValueWorkflow cc "sourceID")
    destID := jsParseInt (getEntryValueWorkflow cc "destID") }

/-- `nodeMap[i]` (lines 77-86): the JS map is populated in declaration
order and later nodes with the same id overwrite earlier ones, so lookup
returns the last declaration with that id. -/
def nodeMapFind (nodes : List WNode) (i : JsId) : Option WNode :=
  nodes.reverse.find? (fun n => n.id = i)

/-- Adjacency construction (lines 109-114): every connection whose source id
belongs to the node map pushes its destination onto `nodeMap[src].nextNodes`.
Since the map holds the last declaration of each id, all pushes for an id
mutate that last node object; an earlier duplicate keeps its empty list.
A connection with an undeclared source is skipped by the `if (nodeMap[...])`
guard and lands in no node's adjacency. -/
def fillNextNodes : List WNode → List WConn → List WNode
  | [], _ => []
  | n :: tl, conns =>
    (if tl.all (fun m => m.id ≠ n.id) then
      { n with nextNodes :=
        (conns.filter (fun c => c.sourceID = n.id)).map WConn.destID }
    else n) :: fillNextNodes tl conns

/-- `inDegree` after the construction loop (lines 105-114): every declared
node id starts at 0, and every connection increments its destination —
`(inDegree[dest] || 0) + 1` creates entries for undeclared destinations
too, so for every id actually read the value is the incoming-edge count. -/
def initInDegree (conns : List WConn) (i : JsId) : Int :=
  ((conns.filter (fun c => c.destID = i)).length : Int)

/-- Processing of `current.nextNodes` (lines 130-135): decrement the
in-degree of each destination in order, enqueueing `nodeMap[nid]` (possibly
`undefined`, i.e. `none`) whenever a decrement reaches exactly 0. -/
def processNext (nodes : List WNode) (nexts : List JsId)
    (deg : JsId → Int) (q : List (Option WNode)) :
    (JsId → Int) × List (Option WNode) :=
  match nexts with
  | [] => (deg, q)
  | nid :: tl =>
    let deg2 : JsId → Int := fun i => if i = nid then deg i - 1 else deg i
    let q2 := if deg2 nid = 0 then q ++ [nodeMapFind nodes nid] else q
    processNext nodes tl deg2 q2

/-- The `while (queue.length > 0)` loop of Kahn's algorithm (lines 123-136).
Dequeuing an `undefined` entry models the JS `TypeError` thrown by
`current.order = order`.  The fuel only bounds the iteration count; the
caller passes a bound above the maximal possible number of enqueues
(`kahnLoop_terminates` shows it is never exhausted when every connection
destination is declared, matching the termination of the JS loop). -/
def kahnLoop (nodes : List WNode) : Nat → List (Option WNode) →
    (JsId → Int) → List WNode → Except String (List WNode)
  | _, [], _, sorted => .ok sorted
  | 0, _ :: _, _, _ => .error "InternalFuelExhausted"
  | _ + 1, none :: _, _, _ =>
    .error "TypeError: Cannot set properties of undefined (setting 'order')"
  | fuel + 1, some current :: rest, deg, sorted =>
    let dq := processNext nodes current.nextNodes deg rest
    kahnLoop nodes fuel dq.2 dq.1
      (sorted ++ [{ current with order := some sorted.length }])

/-- Block extraction of `parseWorkflowKnime` (lines 59-101): throws on a
missing root config, nodes block or connections block; an array-valued root
behaves like a missing `root.config` property, hence a missing nodes block.
Returns the wrapped node and connection config lists. -/
def parseBlocks (workflowConfig : OneOrMany ConfigNode) :
    Except String (List ConfigNode × List ConfigNode) :=
  match workflowConfig with
  | .absent => .error "Invalid workflow JSON: Missing root config."
  | root =>
    let rootChildren : OneOrMany ConfigNode :=
      match root with
      | .one c => c.configOf
      | _ => .absent
    match findConfigByKey rootChildren "nodes" with
    | none => .error "Nodes block not found in workflow JSON."
    | some nodesBlock =>
      match nodesBlock.configOf with
      | .absent => .error "Nodes block not found in workflow JSON."
      | nbc =>
        match findConfigByKey rootChildren "connections" with
        | none => .error "Connections block not found in workflow JSON."
        | some connectionsBlock =>
          match connectionsBlock.configOf with
          | .absent => .error "Connections block not found in workflow JSON."
          | cbc => .ok (nbc.wrap, cbc.wrap)

/-- The workflow JSON: an object whose `config` property holds the root. -/
structure WorkflowJson where
  config : OneOrMany ConfigNode

/-- The value returned by `parseWorkflowKnime` (line 144):
`{nodes: sortedNodes, connections}` — note the unordered nodes are absent
from `sortedNodes`; a count mismatch only triggers a console warning
(lines 138-142). -/
structure ParseResult where
  nodes : List WNode
  connections : List WConn
deriving DecidableEq, Repr

/-- Fuel bound for the Kahn loop: above the maximal number of queue
insertions (each node object is seeded at most once, and each distinct id is
enqueued at most once by a decrement reaching zero). -/
def kahnFuel (nodes : List WNode) (conns : List WConn) : Nat :=
  2 * nodes.length + conns.length + 1

/-- Graph building and topological sort of `parseWorkflowKnime`
(lines 103-144): adjacency and in-degrees from the connections, queue seeded
with the in-degree-0 nodes in declaration order, Kahn's loop, and the result
`{nodes: sortedNodes, connections}`. -/
def buildGraph (nodes0 : List WNode) (connections : List WConn) :
    Except String ParseResult :=
  let nodes := fillNextNodes nodes0 connections
  let queue := (nodes.filter
    (fun n => initInDegree connections n.id = 0)).map some
  match kahnLoop nodes (kahnFuel nodes connections) queue
      (initInDegree connections) [] with
  | .error e => .error e
  | .ok sorted => .ok ⟨sorted, connections⟩

/-- Embeds `parseWorkflowKnime(workflowJson)` of
`src/functions/parseWorkflowKnime.js` (lines 59-145). -/
def parseWorkflowKnime (workflowJson : WorkflowJson) :
    Except String ParseResult :=
  match parseBlocks workflowJson.config with
  | .error e => .error e
  | .ok (nodeConfigs, connectionConfigs) =>
    buildGraph (nodeConfigs.map mkWNode) (connectionConfigs.map mkWConn)

/-- Ids of the defined entries of the work queue. -/
def queueIds (q : List (Option WNode)) : List JsId :=
  q.filterMap (fun o => o.map WNode.id)

/-- Number of connections into `i` whose source id has not been processed
yet (processed = dequeued into the sorted list). -/
def remDeg (conns : List WConn) (sortedIds : List JsId) (i : JsId) : Nat :=
  (conns.filter
    (fun c => c.destID = i ∧ c.sourceID ∉ sortedIds)).length

/-- Deduplication keeping the last occurrence of each element — the order in
which ids reach in-degree 0 while a node's out-edge list is processed. -/
def dedupKeepLast : List JsId → List JsId
  | [] => []
  | a :: tl =>
    if a ∈ tl then dedupKeepLast tl else a :: dedupKeepLast tl

/-- The directed-edge relation declared by a connection list. -/
def connEdge (conns : List WConn) (s t : JsId) : Prop :=
  ∃ c ∈ conns, c.sourceID = s ∧ c.destID = t

/-- Loop invariant of the embedded Kahn loop, stated at loop heads:
queue entries are defined node objects; sorted entries are nodes with their
dequeue index as `order`; an id occurs at most once across sorted (pluses)
queue; the in-degree function counts the connections from unprocessed
sources; a declared id has been seen (sorted or queued) exactly when its
in-degree is exhausted; and every connection into a sorted node comes from a
node sorted strictly earlier. -/
structure KInv (nodes : List WNode) (conns : List WConn)
    (q : List (Option WNode)) (deg : JsId → Int)
    (sorted : List WNode) : Prop where
  qdef : ∀ o ∈ q, ∃ n, n ∈ nodes ∧ o = some n
  smem : ∀ m ∈ sorted, ∃ n ∈ nodes, m.id = n.id ∧ m.nextNodes = n.nextNodes
  sord : ∀ (j : Nat) (h : j < sorted.length), (sorted[j]).order = some j
  nodup : (sorted.map WNode.id ++ queueIds q).Nodup
  degEq : ∀ i, deg i = (remDeg conns (sorted.map WNode.id) i : Int)
  seenIff : ∀ i ∈ nodes.map WNode.id,
    (i ∈ sorted.map WNode.id ++ queueIds q ↔ deg i ≤ 0)
  ordInv : ∀ c ∈ conns, ∀ (jt : Nat) (h : jt < sorted.length),
    (sorted[jt]).id = c.destID →
    ∃ (js : Nat) (h2 : js < sorted.length),
      (sorted[js]).id = c.sourceID ∧ js < jt



/-- A minimal node config declaring only an `id` entry. -/
def nodeCfg (idStr : String) : ConfigNode :=
  .mk none (.many [⟨some ⟨some "id", some idStr, some "xint", none⟩⟩]) .absent

/-- A minimal connection config declaring `sourceID` and `destID`. -/
def connCfg (s d : String) : ConfigNode :=
  .mk none
    (.many [⟨some ⟨some "sourceID", some s, some "xint", none⟩⟩,
            ⟨some ⟨some "destID", some d, some "xint", none⟩⟩])
    .absent

/-- A workflow JSON with the given node and connection config lists. -/
def wfWorkflow (nodeCfgs connCfgs : List ConfigNode) : WorkflowJson :=
  ⟨.one (.mk none .absent (.many
    [.mk (some ⟨some "nodes", none, none, none⟩) .absent (.many nodeCfgs),
     .mk (some ⟨some "connections", none, none, none⟩) .absent
       (.many connCfgs)]))⟩

/-- Nodes 1, 2 with the single connection 1 → 2. -/
def acyclicWorkflow : WorkflowJson :=
  wfWorkflow [nodeCfg "1", nodeCfg "2"] [connCfg "1" "2"]

/-- Nodes 1, 2 with the two-cycle 1 → 2 → 1. -/
def cyclicWorkflow : WorkflowJson :=
  wfWorkflow [nodeCfg "1", nodeCfg "2"] [connCfg "1" "2", connCfg "2" "1"]

/-- Node 1 only, with a connection to the undeclared node 2. -/
def danglingDestWorkflow : WorkflowJson :=
  wfWorkflow [nodeCfg "1"] [connCfg "1" "2"]

/-- Node 2 only, with a connection from the undeclared node 1. -/
def danglingSourceWorkflow : WorkflowJson :=
  wfWorkflow [nodeCfg "2"] [connCfg "1" "2"]


/-- Unfolding of `getEntryValue` through the `find` call, for all three input
shapes (an absent property behaves like an empty collection). -/
theorem getEntryValue_eq (ep : OneOrMany Entry) (key : String) :
    getEntryValue ep key =
      match ep.wrap.find? (entryKeyIs key) with
      | none => .nullv
      | some e =>
        match e._attributes with
        | none => .nullv
        | some a =>
          if a.isnull = some "true" then .nullv
          else if a.type = some "xboolean" then .boolv (a.value = some "true")
          else
            match a.value with
            | none => .nullv
            | some s => if s = "" then .nullv else .strv s := by
  cases ep <;> rfl

/-- C8: the settings accessor `getEntryValue` is total and returns: `null`
when the entry property, the collection, or the key is absent; `null` on the
explicit-null tag; the boolean parsed from the canonical string `"true"` under
the `xboolean` type tag; and otherwise the raw string value, or `null` when
that value is absent or the empty string. -/
theorem C8_getValue_cases (ep : OneOrMany Entry) (key : String) :
    (getEntryValue .absent key = .nullv)
    ∧ (ep.wrap.find? (entryKeyIs key) = none → getEntryValue ep key = .nullv)
    ∧ (∀ e a, ep.wrap.find? (entryKeyIs key) = some e →
        e._attributes = some a →
        ((a.isnull = some "true" → getEntryValue ep key = .nullv)
         ∧ (a.isnull ≠ some "true" → a.type = some "xboolean" →
             getEntryValue ep key = .boolv (a.value = some "true"))
         ∧ (∀ s, a.isnull ≠ some "true" → a.type ≠ some "xboolean" →
             a.value = some s → s ≠ "" → getEntryValue ep key = .strv s)
         ∧ (a.isnull ≠ some "true" → a.type ≠ some "xboolean" →
             (a.value = none ∨ a.value = some "") →
             getEntryValue ep key = .nullv))) := by
  refine ⟨rfl, ?_, ?_⟩
  · intro h
    rw [getEntryValue_eq, h]
  · intro e a hf ha
    rw [getEntryValue_eq]
    simp only [hf, ha]
    refine ⟨?_, ?_, ?_, ?_⟩
    · intro hn; simp [hn]
    · intro hn ht; simp [hn, ht]
    · intro s hn ht hv hs; simp [hn, ht, hv, hs]
    · intro hn ht hv
      rcases hv with hv | hv <;> simp [hn, ht, hv]

/-- Witness for C8 at concrete inputs: an `xboolean` entry parses to a
boolean, an ordinary entry returns its raw string. -/
theorem C8_getValue_cases_witness :
    getEntryValue
      (.one ⟨some ⟨some "flag", some "true", some "xboolean", none⟩⟩) "flag"
      = .boolv true
    ∧ getEntryValue
      (.one ⟨some ⟨some "path", some "f.csv", some "xstring", none⟩⟩) "path"
      = .strv "f.csv" := by
  constructor
  · have h := (C8_getValue_cases
      (.one ⟨some ⟨some "flag", some "true", some "xboolean", none⟩⟩)
      "flag").2.2 ⟨some ⟨some "flag", some "true", some "xboolean", none⟩⟩
      ⟨some "flag", some "true", some "xboolean", none⟩ rfl rfl
    simpa using h.2.1 (by decide) rfl
  · have h := (C8_getValue_cases
      (.one ⟨some ⟨some "path", some "f.csv", some "xstring", none⟩⟩)
      "path").2.2 ⟨some ⟨some "path", some "f.csv", some "xstring", none⟩⟩
      ⟨some "path", some "f.csv", some "xstring", none⟩ rfl rfl
    exact h.2.2.1 "f.csv" (by decide) (by decide) rfl (by decide)

/-- `getArrayValuesFromConfig` on any present config is the entrywise
filter-map of `arrayEntryKeep` over the wrapped entry list. -/
theorem getArrayValuesFromConfig_eq (c : ConfigNode) :
    getArrayValuesFromConfig (some c) = c.entryOf.wrap.filterMap arrayEntryKeep := by
  obtain ⟨a0, ent, cc⟩ := c
  cases ent <;> rfl

/-- Counterexample to C9: the claim says every entry not matching the
positional-string shape is skipped without being included in the result, so
on `strayArrayCfg` the result would be `["a"]`.  The code keeps every
non-`"array-size"` entry with a truthy value, so the stray entry's value
`"m"` is included. -/
theorem C9_counterexample :
    getArrayValuesFromConfig (some strayArrayCfg) = ["a", "m"]
    ∧ "m" ∈ getArrayValuesFromConfig (some strayArrayCfg) := by
  exact ⟨rfl, by decide⟩

/-- C9 (amended): `getArrayValuesFromConfig` returns the values of all
attribute-bearing entries whose key is not `"array-size"` and whose value is
non-empty, in entry order.  For a subtree consisting of the size entry
followed by positional string entries this is the ordered positional values;
but a stray entry with a non-empty value is included, not skipped (only the
size entry, attribute-less entries and empty values are dropped silently). -/
theorem C9_amended_array_values (a0 : Option Attrs) (cc : OneOrMany ConfigNode)
    (sizeE : Entry) (sa : Attrs) (hs : sizeE._attributes = some sa)
    (hska : sa.key = some "array-size")
    (pos : List Entry)
    (hpos : ∀ e ∈ pos, ∃ a, e._attributes = some a ∧
       a.key ≠ some "array-size" ∧ ∃ v, a.value = some v ∧ v ≠ "")
    (stray : Entry) (ta : Attrs) (hti : stray._attributes = some ta)
    (htk : ta.key ≠ some "array-size") (m : String) (htv : ta.value = some m)
    (hm : m ≠ "") :
    getArrayValuesFromConfig
        (some (.mk a0 (.many (sizeE :: (pos ++ [stray]))) cc))
      = pos.map entryValueD ++ [m] := by
  rw [getArrayValuesFromConfig_eq]
  show List.filterMap arrayEntryKeep (sizeE :: (pos ++ [stray]))
      = pos.map entryValueD ++ [m]
  have hsz : arrayEntryKeep sizeE = none := by
    simp [arrayEntryKeep, hs, hska]
  have hstray : arrayEntryKeep stray = some m := by
    simp [arrayEntryKeep, hti, htk, htv, hm]
  have hposmap : List.filterMap arrayEntryKeep pos = pos.map entryValueD := by
    induction pos with
    | nil => rfl
    | cons e tl ih =>
      obtain ⟨a, hea, hk, v, hv, hvne⟩ := hpos e (by simp)
      have he : arrayEntryKeep e = some (entryValueD e) := by
        simp [arrayEntryKeep, hea, hk, hv, hvne, entryValueD]
      simp only [List.filterMap_cons, he, List.map_cons]
      exact congrArg (entryValueD e :: ·)
        (ih (fun x hx => hpos x (by simp [hx])))
  simp [hsz, hstray, hposmap]

/-- Witness for C9 (amended) at a concrete input: size entry, positional
entries `"0" → "a"`, `"1" → "b"`, stray entry with value `"m"`. -/
theorem C9_amended_array_values_witness :
    getArrayValuesFromConfig
        (some (.mk none (.many
          [⟨some ⟨some "array-size", some "2", some "xint", none⟩⟩,
           ⟨some ⟨some "0", some "a", some "xstring", none⟩⟩,
           ⟨some ⟨some "1", some "b", some "xstring", none⟩⟩,
           ⟨some ⟨some "stray", some "m", some "xstring", none⟩⟩]) .absent))
      = ["a", "b", "m"] := by
  have h := C9_amended_array_values none .absent
    ⟨some ⟨some "array-size", some "2", some "xint", none⟩⟩
    ⟨some "array-size", some "2", some "xint", none⟩ rfl rfl
    [⟨some ⟨some "0", some "a", some "xstring", none⟩⟩,
     ⟨some ⟨some "1", some "b", some "xstring", none⟩⟩]
    (by decide)
    ⟨some ⟨some "stray", some "m", some "xstring", none⟩⟩
    ⟨some "stray", some "m", some "xstring", none⟩ rfl (by decide)
    "m" rfl (by decide)
  simpa [entryValueD] using h

/-- Characterization of the entrywise keep-or-drop function. -/
theorem arrayEntryKeep_eq_some (e : Entry) (s : String) :
    arrayEntryKeep e = some s ↔
      ∃ a, e._attributes = some a ∧ a.key ≠ some "array-size" ∧
        a.value = some s ∧ s ≠ "" := by
  obtain ⟨attr⟩ := e
  match attr with
  | none => simp [arrayEntryKeep]
  | some a =>
    show (if a.key ≠ some "array-size" ∧ a.value ≠ none ∧ a.value ≠ some ""
      then a.value else none) = some s ↔ _
    constructor
    · intro hk
      by_cases hc : a.key ≠ some "array-size" ∧ a.value ≠ none ∧
          a.value ≠ some ""
      · rw [if_pos hc] at hk
        exact ⟨a, rfl, hc.1, hk, fun hs => hc.2.2 (hs ▸ hk)⟩
      · rw [if_neg hc] at hk; cases hk
    · rintro ⟨a2, ha2, hk, hv, hs⟩
      have haa : a = a2 := by injection ha2
      subst haa
      rw [if_pos ⟨hk, by simp [hv], by simp [hv, hs]⟩]
      exact hv

/-- C10: membership in the result of `getArrayValuesFromConfig` is exactly
"value of some attribute-bearing entry with key other than `"array-size"` and
a non-empty value"; consequently an array element stored as the empty string
is silently omitted — the result is identical to the one for the config with
that entry deleted, so callers cannot distinguish an empty-string element
from an absent one. -/
theorem C10_empty_string_elements_omitted :
    (∀ (co : Option ConfigNode) (s : String),
      s ∈ getArrayValuesFromConfig co ↔
        ∃ c, co = some c ∧ ∃ e ∈ c.entryOf.wrap, ∃ a,
          e._attributes = some a ∧ a.key ≠ some "array-size" ∧
          a.value = some s ∧ s ≠ "")
    ∧ (∀ (a0 : Option Attrs) (cc : OneOrMany ConfigNode)
        (l1 l2 : List Entry) (e : Entry) (a : Attrs),
        e._attributes = some a → a.value = some "" →
        getArrayValuesFromConfig (some (.mk a0 (.many (l1 ++ e :: l2)) cc)) =
        getArrayValuesFromConfig (some (.mk a0 (.many (l1 ++ l2)) cc))) := by
  constructor
  · intro co s
    constructor
    · intro hmem
      match co with
      | none => simp [getArrayValuesFromConfig] at hmem
      | some c =>
        rw [getArrayValuesFromConfig_eq] at hmem
        obtain ⟨e, he, hk⟩ := List.mem_filterMap.mp hmem
        exact ⟨c, rfl, e, he, (arrayEntryKeep_eq_some e s).mp hk⟩
    · rintro ⟨c, rfl, e, he, a, ha, hk, hv, hs⟩
      rw [getArrayValuesFromConfig_eq]
      exact List.mem_filterMap.mpr
        ⟨e, he, (arrayEntryKeep_eq_some e s).mpr ⟨a, ha, hk, hv, hs⟩⟩
  · intro a0 cc l1 l2 e a ha hv
    rw [getArrayValuesFromConfig_eq, getArrayValuesFromConfig_eq]
    show List.filterMap arrayEntryKeep (l1 ++ e :: l2)
        = List.filterMap arrayEntryKeep (l1 ++ l2)
    have he : arrayEntryKeep e = none := by
      simp [arrayEntryKeep, ha, hv]
    simp [List.filterMap_append, List.filterMap_cons, he]

/-- Witness for C10 at concrete inputs: a config with an empty-string element
at position 1 yields the same result as the config without it. -/
theorem C10_empty_string_elements_omitted_witness :
    getArrayValuesFromConfig
        (some (.mk none (.many
          [⟨some ⟨some "0", some "a", some "xstring", none⟩⟩,
           ⟨some ⟨some "1", some "", some "xstring", none⟩⟩,
           ⟨some ⟨some "2", some "b", some "xstring", none⟩⟩]) .absent)) =
    getArrayValuesFromConfig
        (some (.mk none (.many
          [⟨some ⟨some "0", some "a", some "xstring", none⟩⟩,
           ⟨some ⟨some "2", some "b", some "xstring", none⟩⟩]) .absent))
    ∧ "a" ∈ getArrayValuesFromConfig
        (some (.mk none (.many
          [⟨some ⟨some "0", some "a", some "xstring", none⟩⟩,
           ⟨some ⟨some "1", some "", some "xstring", none⟩⟩,
           ⟨some ⟨some "2", some "b", some "xstring", none⟩⟩]) .absent)) := by
  constructor
  · exact C10_empty_string_elements_omitted.2 none .absent
      [⟨some ⟨some "0", some "a", some "xstring", none⟩⟩]
      [⟨some ⟨some "2", some "b", some "xstring", none⟩⟩]
      ⟨some ⟨some "1", some "", some "xstring", none⟩⟩
      ⟨some "1", some "", some "xstring", none⟩ rfl rfl
  · exact (C10_empty_string_elements_omitted.1 _ "a").mpr
      ⟨_, rfl, ⟨some ⟨some "0", some "a", some "xstring", none⟩⟩, by decide,
       ⟨some "0", some "a", some "xstring", none⟩, rfl, by decide, rfl,
       by decide⟩

/-- Folding JS-set insertion over a list appends exactly the genuinely new
elements: the accumulator stays a prefix and every appended element comes
from the folded list and was not already present. -/
theorem foldl_jsSetInsert_spec (adds : List String) :
    ∀ init : List String, ∃ rest,
      adds.foldl jsSetInsert init = init ++ rest
      ∧ ∀ c ∈ rest, c ∈ adds ∧ c ∉ init := by
  induction adds with
  | nil => exact fun init => ⟨[], by simp⟩
  | cons a tl ih =>
    intro init
    by_cases ha : a ∈ init
    · obtain ⟨rest, heq, hrest⟩ := ih init
      refine ⟨rest, ?_, ?_⟩
      · simpa [List.foldl_cons, jsSetInsert, ha] using heq
      · exact fun c hc => ⟨List.mem_cons_of_mem a (hrest c hc).1,
          (hrest c hc).2⟩
    · obtain ⟨rest, heq, hrest⟩ := ih (init ++ [a])
      refine ⟨a :: rest, ?_, ?_⟩
      · simpa [List.foldl_cons, jsSetInsert, ha] using heq
      · intro c hc
        rcases List.mem_cons.mp hc with rfl | hc2
        · exact ⟨by simp, ha⟩
        · refine ⟨List.mem_cons_of_mem a (hrest c hc2).1, fun hcin => ?_⟩
          exact (hrest c hc2).2 (by simp [hcin])

/-- `Array.from(new Set(l))` over an already duplicate-free list `l`,
starting from a duplicate-free disjoint accumulator, appends `l`. -/
theorem foldl_jsSetInsert_of_nodup (l : List String) :
    ∀ init : List String, l.Nodup → (∀ c ∈ l, c ∉ init) →
      l.foldl jsSetInsert init = init ++ l := by
  induction l with
  | nil => simp
  | cons a tl ih =>
    intro init hnd hdisj
    have ha : a ∉ init := hdisj a (by simp)
    have step : jsSetInsert init a = init ++ [a] := by simp [jsSetInsert, ha]
    rw [List.foldl_cons, step,
      ih (init ++ [a]) hnd.of_cons (fun c hc => ?_)]
    · simp
    · intro hmem
      rcases List.mem_append.mp hmem with h1 | h1
      · exact hdisj c (by simp [hc]) h1
      · have : c = a := by simpa using h1
        exact (List.nodup_cons.mp hnd).1 (this ▸ hc)

/-- JS-set deduplication is the identity on duplicate-free lists. -/
theorem jsSetOfList_eq_self (l : List String) (h : l.Nodup) :
    jsSetOfList l = l := by
  have := foldl_jsSetInsert_of_nodup l [] h (by simp)
  simpa [jsSetOfList] using this

/-- C4: on a transform node (empty `initialOutputColumns`) whose
`addedColumns` contains a name already present in the input schema after
`removedColumns` filtering, the final schema contains that name exactly once,
at the position it already occupied in the filtered input, and the genuinely
new names are appended at the end. -/
theorem C4_dedup_on_readd (addedColumns removedColumns inputColumns :
    List String) (name : String) (hnd : inputColumns.Nodup)
    (hadd : name ∈ addedColumns)
    (hmem : name ∈ inputColumns.filter (fun col => ¬ col ∈ removedColumns)) :
    (computeFinalColumns [] addedColumns removedColumns inputColumns).count
        name = 1
    ∧ (computeFinalColumns [] addedColumns removedColumns
        inputColumns).indexOf name
        = (inputColumns.filter (fun col => ¬ col ∈ removedColumns)).indexOf
            name
    ∧ ∃ rest, computeFinalColumns [] addedColumns removedColumns inputColumns
        = inputColumns.filter (fun col => ¬ col ∈ removedColumns) ++ rest
      ∧ ∀ c ∈ rest, c ∈ addedColumns
        ∧ c ∉ inputColumns.filter (fun col => ¬ col ∈ removedColumns) := by
  set filtered := inputColumns.filter (fun col => ¬ col ∈ removedColumns)
    with hfil
  have hfnd : filtered.Nodup := hnd.filter _
  have hset : jsSetOfList filtered = filtered := jsSetOfList_eq_self _ hfnd
  obtain ⟨rest, heq, hrest⟩ := foldl_jsSetInsert_spec addedColumns filtered
  have hcomp : computeFinalColumns [] addedColumns removedColumns inputColumns
      = filtered ++ rest := by
    show addedColumns.foldl jsSetInsert (jsSetOfList filtered)
        = filtered ++ rest
    rw [hset, heq]
  have hnotr : name ∉ rest := fun hr => (hrest name hr).2 hmem
  refine ⟨?_, ?_, rest, hcomp, hrest⟩
  · rw [hcomp, List.count_append, List.count_eq_one_of_mem hfnd hmem,
      List.count_eq_zero.mpr hnotr]
  · rw [hcomp, List.indexOf_append_of_mem hmem]

/-- Witness for C4 at a concrete input: input `[a, b, c]`, removing `c`,
re-adding `b` and adding `d` yields `[a, b, d]` with `b` kept once at its
original position and `d` appended. -/
theorem C4_dedup_on_readd_witness :
    (computeFinalColumns [] ["b", "d"] ["c"] ["a", "b", "c"]).count "b" = 1
    ∧ (computeFinalColumns [] ["b", "d"] ["c"] ["a", "b", "c"]).indexOf "b"
        = (["a", "b", "c"].filter
            (fun col => ¬ col ∈ (["c"] : List String))).indexOf "b"
    ∧ ∃ rest, computeFinalColumns [] ["b", "d"] ["c"] ["a", "b", "c"]
        = ["a", "b", "c"].filter (fun col => ¬ col ∈ (["c"] : List String))
            ++ rest
      ∧ ∀ c ∈ rest, c ∈ (["b", "d"] : List String)
        ∧ c ∉ ["a", "b", "c"].filter
            (fun col => ¬ col ∈ (["c"] : List String)) :=
  C4_dedup_on_readd ["b", "d"] ["c"] ["a", "b", "c"] "b" (by decide)
    (by decide) (by decide)

/-- Every successful reader-branch result carries empty added and removed
column sets. -/
theorem readerColumns_shape (m : Option ConfigNode) (r : ColumnNodesResult)
    (h : readerColumns m = some r) :
    r.addedColumns = [] ∧ r.removedColumns = [] := by
  match m with
  | none => cases h
  | some mc =>
    dsimp only [readerColumns] at h
    split at h
    · cases h
      exact ⟨rfl, rfl⟩
    · cases h

/-- For a CSV/Excel reader factory, `getColumnNodes` takes the reader branch
on the model config. -/
theorem getColumnNodes_reader_eq (cfg : ConfigNode)
    (inp : Option (List String))
    (hfac : getEntryValue cfg.entryOf "factory" = .strv CSV_FACTORY
          ∨ getEntryValue cfg.entryOf "factory" = .strv EXCEL_FACTORY) :
    getColumnNodes (some cfg) inp
      = readerColumns (findConfigByKey cfg.configOf "model") := by
  obtain ⟨a0, ent, cc⟩ := cfg
  simp only [ConfigNode.entryOf, ConfigNode.configOf] at hfac ⊢
  cases ent with
  | absent =>
    rcases hfac with hf | hf <;> exact absurd hf (by simp [getEntryValue])
  | one e =>
    rcases hfac with hf | hf <;>
      simp [getColumnNodes, ConfigNode.entryOf, ConfigNode.configOf, hf,
        JsVal.truthy, CSV_FACTORY, EXCEL_FACTORY]
  | many l =>
    rcases hfac with hf | hf <;>
      simp [getColumnNodes, ConfigNode.entryOf, ConfigNode.configOf, hf,
        JsVal.truthy, CSV_FACTORY, EXCEL_FACTORY]

/-- Counterexample to C5: `csvNoColsCfg` is a CSV-reader node, but its
extracted column list is empty, so the per-node computation falls through to
the transform rule: fed the non-empty predecessor schema `["x"]` it produces
`["x"]`, fed none it produces `[]` — the reader's output schema does depend
on the predecessor schema. -/
theorem C5_counterexample :
    getEntryValue csvNoColsCfg.entryOf "factory" = .strv CSV_FACTORY
    ∧ getColumnNodes (some csvNoColsCfg) none = some ⟨[], [], []⟩
    ∧ computeFinalColumns [] [] [] ["x"] = ["x"]
    ∧ computeFinalColumns [] [] [] [] = []
    ∧ computeFinalColumns [] [] [] ["x"] ≠ computeFinalColumns [] [] [] [] :=
  ⟨rfl, rfl, rfl, rfl, by decide⟩

/-- C5 (amended): a reader node's output schema ignores the predecessor
schema whenever the column list extracted from its own settings is non-empty;
when extraction yields no columns, the node falls through to the transform
rule and (the reader's added/removed sets being empty) its schema equals the
deduplicated predecessor input — i.e. it does depend on the input. -/
theorem C5_amended_reader_independence (cfg : ConfigNode)
    (r : ColumnNodesResult)
    (hfac : getEntryValue cfg.entryOf "factory" = .strv CSV_FACTORY
          ∨ getEntryValue cfg.entryOf "factory" = .strv EXCEL_FACTORY)
    (hres : getColumnNodes (some cfg) none = some r) :
    (r.finalColumns ≠ [] →
      ∀ input1 input2 : List String,
        computeFinalColumns r.finalColumns r.addedColumns r.removedColumns
          input1
        = computeFinalColumns r.finalColumns r.addedColumns r.removedColumns
          input2)
    ∧ (r.finalColumns = [] →
      ∀ input : List String,
        computeFinalColumns r.finalColumns r.addedColumns r.removedColumns
          input
        = jsSetOfList input) := by
  have hreader : readerColumns (findConfigByKey cfg.configOf "model")
      = some r := by
    rw [← getColumnNodes_reader_eq cfg none hfac]; exact hres
  have hsh := readerColumns_shape _ r hreader
  constructor
  · intro hne input1 input2
    have hl : r.finalColumns.length > 0 := List.length_pos.mpr hne
    simp [computeFinalColumns, hl]
  · intro hempty input
    rw [hempty, hsh.1, hsh.2]
    show jsSetOfList ((input.filter (fun col => ¬ col ∈ ([] : List String))))
        = jsSetOfList input
    simp

/-- Witness for C5 (amended) at a concrete reader config with one extracted
column: its schema is the same whether fed the predecessor schema `["p"]` or
none. -/
theorem C5_amended_reader_independence_witness :
    computeFinalColumns ["colA"] [] [] ["p"]
      = computeFinalColumns ["colA"] [] [] [] :=
  (C5_amended_reader_independence csvColsCfg ⟨["colA"], [], []⟩
    (Or.inl rfl) rfl).1 (by decide) ["p"] []

/-- A `forEach` iteration whose connection carries a port and whose
predecessor lookup succeeds with valid alias and schema performs the
port-directed assignment. -/
theorem joinerStep_assign (allNodes : List PNode) (J : Int)
    (st : JoinerSlots) (p : PNode) (ca : List JoinConn) (conn : JoinConn)
    (port : Int) (F : PNode) (sf : String) (nf : List String)
    (h1 : p.nextNodes = some ca)
    (h2 : ca.find? (fun c => c.targetNodeId = J) = some conn)
    (h3 : conn.targetPortIndex = some port)
    (h4 : allNodes.find? (fun n => n.id = p.id) = some F)
    (h5 : F.sqlAlias = some sf) (h6 : sf ≠ "") (h7 : F.nodes = some nf) :
    joinerStep allNodes J st p =
      if port = 0 then { st with left := .detail ⟨F.id, sf, nf⟩ }
      else if port = 1 then { st with right := .detail ⟨F.id, sf, nf⟩ }
      else st := by
  simp only [joinerStep, h1, h2, h3, h4, h5, h7]
  rw [if_neg h6]

/-- A `forEach` iteration whose connection to the joiner is missing its
`targetPortIndex` overwrites the left slot with the error marker. -/
theorem joinerStep_missing_port (allNodes : List PNode) (J : Int)
    (st : JoinerSlots) (p : PNode) (ca : List JoinConn) (conn : JoinConn)
    (h1 : p.nextNodes = some ca)
    (h2 : ca.find? (fun c => c.targetNodeId = J) = some conn)
    (h3 : conn.targetPortIndex = none) :
    joinerStep allNodes J st p = { st with left := .jerror } := by
  simp only [joinerStep, h1, h2, h3]

/-- Counterexample to C3: `nodeM`'s connection to joiner 9 is missing its
port metadata, which the claim says is an error preventing SQL generation.
But the error marker it writes into the left slot is overwritten by the
later port-0 connection from `nodeA`, so the resolver returns both inputs
resolved and the converter gate generates SQL. -/
theorem C3_counterexample :
    nodeM.nextNodes = some [⟨9, none, none⟩]
    ∧ findJoinerPredecessorDetails 9 [nodeM, nodeA, nodeB]
        = (some ⟨1, "A", ["id", "name"]⟩, some ⟨2, "B", ["id", "amount"]⟩)
    ∧ convertJoinerNodeToSQLGate 9 [nodeM, nodeA, nodeB] = false := by
  refine ⟨rfl, by decide, by decide⟩

/-- C3 (amended): with connections `{source:A, target:J, targetPort:0}` and
`{source:B, target:J, targetPort:1}` carrying valid details, the resolver
assigns A as left input and B as right input in either declaration order.  A
connection with any port other than 0/1 leaves the resolution state
unchanged (ignored with a warning).  A connection missing port metadata
overwrites the left slot with the error marker, and if that marker survives
the whole pass the resolver returns `{left: null, right: null}`; whenever
either input is unresolved the converter returns an error and generates no
SQL.  (As the counterexample shows, the marker does not survive a later
port-0 assignment, so "missing port metadata" is not always a final error.)
-/
theorem C3_amended_join_port_disambiguation (J : Int) (A B : PNode)
    (ca cb : List JoinConn) (connA connB : JoinConn)
    (sa sb : String) (na nb : List String)
    (hA1 : A.nextNodes = some ca)
    (hA2 : ca.find? (fun c => c.targetNodeId = J) = some connA)
    (hA3 : connA.targetPortIndex = some 0)
    (hA4 : A.sqlAlias = some sa) (hA5 : sa ≠ "") (hA6 : A.nodes = some na)
    (hB1 : B.nextNodes = some cb)
    (hB2 : cb.find? (fun c => c.targetNodeId = J) = some connB)
    (hB3 : connB.targetPortIndex = some 1)
    (hB4 : B.sqlAlias = some sb) (hB5 : sb ≠ "") (hB6 : B.nodes = some nb)
    (hAB : A.id ≠ B.id) :
    (findJoinerPredecessorDetails J [A, B]
        = (some ⟨A.id, sa, na⟩, some ⟨B.id, sb, nb⟩)
      ∧ findJoinerPredecessorDetails J [B, A]
        = (some ⟨A.id, sa, na⟩, some ⟨B.id, sb, nb⟩))
    ∧ (∀ (allNodes : List PNode) (st : JoinerSlots) (p : PNode)
        (cp : List JoinConn) (connP : JoinConn) (k : Int) (F : PNode)
        (sf : String) (nf : List String),
        p.nextNodes = some cp →
        cp.find? (fun c => c.targetNodeId = J) = some connP →
        connP.targetPortIndex = some k → k ≠ 0 → k ≠ 1 →
        allNodes.find? (fun n => n.id = p.id) = some F →
        F.sqlAlias = some sf → sf ≠ "" → F.nodes = some nf →
        joinerStep allNodes J st p = st)
    ∧ (∀ (allNodes : List PNode) (st : JoinerSlots) (p : PNode)
        (cp : List JoinConn) (connP : JoinConn),
        p.nextNodes = some cp →
        cp.find? (fun c => c.targetNodeId = J) = some connP →
        connP.targetPortIndex = none →
        joinerStep allNodes J st p = { st with left := .jerror })
    ∧ (∀ allNodes : List PNode,
        (allNodes.foldl (joinerStep allNodes J) ⟨.jnull, .jnull⟩).left
            = .jerror →
        findJoinerPredecessorDetails J allNodes = (none, none))
    ∧ (∀ allNodes : List PNode,
        (findJoinerPredecessorDetails J allNodes).1 = none
          ∨ (findJoinerPredecessorDetails J allNodes).2 = none →
        convertJoinerNodeToSQLGate J allNodes = true) := by
  have hfA : ∀ tl : List PNode,
      (A :: tl).find? (fun n => n.id = A.id) = some A := by
    intro tl
    rw [List.find?_cons_of_pos _ (by simp)]
  have hfBA : [B, A].find? (fun n => n.id = A.id) = some A := by
    rw [List.find?_cons_of_neg _ (by simp [Ne.symm hAB]),
      List.find?_cons_of_pos _ (by simp)]
  have hfB : [A, B].find? (fun n => n.id = B.id) = some B := by
    rw [List.find?_cons_of_neg _ (by simp [hAB]),
      List.find?_cons_of_pos _ (by simp)]
  have hfBB : ∀ tl : List PNode,
      (B :: tl).find? (fun n => n.id = B.id) = some B := by
    intro tl
    rw [List.find?_cons_of_pos _ (by simp)]
  refine ⟨⟨?_, ?_⟩, ?_, ?_, ?_, ?_⟩
  · have s1 : joinerStep [A, B] J ⟨.jnull, .jnull⟩ A
        = { left := .detail ⟨A.id, sa, na⟩, right := .jnull } := by
      rw [joinerStep_assign [A, B] J _ A ca connA 0 A sa na hA1 hA2 hA3
        (hfA [B]) hA4 hA5 hA6]
      simp
    have s2 : joinerStep [A, B] J
        { left := .detail ⟨A.id, sa, na⟩, right := .jnull } B
        = { left := .detail ⟨A.id, sa, na⟩,
            right := .detail ⟨B.id, sb, nb⟩ } := by
      rw [joinerStep_assign [A, B] J _ B cb connB 1 B sb nb hB1 hB2 hB3
        hfB hB4 hB5 hB6]
      simp
    unfold findJoinerPredecessorDetails
    rw [List.foldl_cons, List.foldl_cons, List.foldl_nil, s1, s2]
    simp [Slot.toOption]
  · have s1 : joinerStep [B, A] J ⟨.jnull, .jnull⟩ B
        = { left := .jnull, right := .detail ⟨B.id, sb, nb⟩ } := by
      rw [joinerStep_assign [B, A] J _ B cb connB 1 B sb nb hB1 hB2 hB3
        (hfBB [A]) hB4 hB5 hB6]
      simp
    have s2 : joinerStep [B, A] J
        { left := .jnull, right := .detail ⟨B.id, sb, nb⟩ } A
        = { left := .detail ⟨A.id, sa, na⟩,
            right := .detail ⟨B.id, sb, nb⟩ } := by
      rw [joinerStep_assign [B, A] J _ A ca connA 0 A sa na hA1 hA2 hA3
        hfBA hA4 hA5 hA6]
      simp
    unfold findJoinerPredecessorDetails
    rw [List.foldl_cons, List.foldl_cons, List.foldl_nil, s1, s2]
    simp [Slot.toOption]
  · intro allNodes st p cp connP k F sf nf h1 h2 h3 hk0 hk1 h4 h5 h6 h7
    rw [joinerStep_assign allNodes J st p cp connP k F sf nf h1 h2 h3 h4
      h5 h6 h7, if_neg hk0, if_neg hk1]
  · intro allNodes st p cp connP h1 h2 h3
    exact joinerStep_missing_port allNodes J st p cp connP h1 h2 h3
  · intro allNodes hleft
    unfold findJoinerPredecessorDetails
    rw [if_pos (Or.inl hleft)]
  · intro allNodes hnone
    unfold convertJoinerNodeToSQLGate
    rcases hnone with h | h <;> simp [h]

/-- Witness for C3 (amended) at concrete inputs: `nodeA` (port 0) and
`nodeB` (port 1) resolve to left and right in both declaration orders; a
port-7 connection is ignored; a missing-port connection marks the left slot;
an unresolved input makes the converter gate error. -/
theorem C3_amended_join_port_disambiguation_witness :
    (findJoinerPredecessorDetails 9 [nodeA, nodeB]
        = (some ⟨1, "A", ["id", "name"]⟩, some ⟨2, "B", ["id", "amount"]⟩)
      ∧ findJoinerPredecessorDetails 9 [nodeB, nodeA]
        = (some ⟨1, "A", ["id", "name"]⟩, some ⟨2, "B", ["id", "amount"]⟩))
    ∧ joinerStep [⟨4, some "C", some [], some [⟨9, some 0, some 7⟩]⟩] 9
        ⟨.jnull, .jnull⟩ ⟨4, some "C", some [], some [⟨9, some 0, some 7⟩]⟩
        = ⟨.jnull, .jnull⟩
    ∧ joinerStep [nodeM] 9 ⟨.jnull, .jnull⟩ nodeM
        = ⟨.jerror, .jnull⟩
    ∧ convertJoinerNodeToSQLGate 9 [nodeM] = true := by
  have h := C3_amended_join_port_disambiguation 9 nodeA nodeB
    [⟨9, some 0, some 0⟩] [⟨9, some 0, some 1⟩]
    ⟨9, some 0, some 0⟩ ⟨9, some 0, some 1⟩ "A" "B"
    ["id", "name"] ["id", "amount"]
    rfl (by decide) rfl rfl (by decide) rfl
    rfl (by decide) rfl rfl (by decide) rfl (by decide)
  refine ⟨h.1, ?_, ?_, ?_⟩
  · exact h.2.1 [⟨4, some "C", some [], some [⟨9, some 0, some 7⟩]⟩]
      ⟨.jnull, .jnull⟩ ⟨4, some "C", some [], some [⟨9, some 0, some 7⟩]⟩
      [⟨9, some 0, some 7⟩] ⟨9, some 0, some 7⟩ 7
      ⟨4, some "C", some [], some [⟨9, some 0, some 7⟩]⟩ "C" [] rfl
      (by decide) rfl (by decide) (by decide) (by decide) rfl (by decide)
      rfl
  · exact h.2.2.1 [nodeM] ⟨.jnull, .jnull⟩ nodeM [⟨9, none, none⟩]
      ⟨9, none, none⟩ rfl (by decide) rfl
  · exact h.2.2.2.2 [nodeM] (by decide)

/-- `fillNextNodes` preserves the id sequence. -/
theorem fillNextNodes_map_id (ns : List WNode) (cs : List WConn) :
    (fillNextNodes ns cs).map WNode.id = ns.map WNode.id := by
  induction ns with
  | nil => rfl
  | cons n tl ih =>
    simp only [fillNextNodes, List.map_cons, ih]
    split <;> rfl

/-- With duplicate-free ids, every node is the last declaration of its id,
so `fillNextNodes` fills every node's adjacency. -/
theorem fillNextNodes_eq_map (ns : List WNode) (cs : List WConn)
    (h : (ns.map WNode.id).Nodup) :
    fillNextNodes ns cs = ns.map (fun n =>
      { n with nextNodes :=
          (cs.filter (fun c => c.sourceID = n.id)).map WConn.destID }) := by
  induction ns with
  | nil => rfl
  | cons n tl ih =>
    simp only [List.map_cons, List.nodup_cons] at h
    have hall : tl.all (fun m => m.id ≠ n.id) = true := by
      rw [List.all_eq_true]
      intro m hm
      simp only [ne_eq, decide_eq_true_eq]
      intro he
      exact h.1 (he ▸ List.mem_map_of_mem WNode.id hm)
    simp only [fillNextNodes, hall, if_pos, List.map_cons, ih h.2]

/-- The nodes produced by `fillNextNodes` under duplicate-free ids carry
exactly the adjacency declared by the connections from their id. -/
theorem fillNextNodes_nextNodes (ns : List WNode) (cs : List WConn)
    (h : (ns.map WNode.id).Nodup) :
    ∀ n ∈ fillNextNodes ns cs, n.nextNodes
      = (cs.filter (fun c => c.sourceID = n.id)).map WConn.destID := by
  intro n hn
  rw [fillNextNodes_eq_map ns cs h] at hn
  obtain ⟨n0, _, rfl⟩ := List.mem_map.mp hn
  rfl

/-- A declared id is found by `nodeMap` lookup, and the found node is a
declared node carrying that id. -/
theorem nodeMapFind_mem_id (nodes : List WNode) (i : JsId)
    (hi : i ∈ nodes.map WNode.id) :
    ∃ n, nodeMapFind nodes i = some n ∧ n ∈ nodes ∧ n.id = i := by
  obtain ⟨n0, hn0, hid⟩ := List.mem_map.mp hi
  have hex : ∃ n ∈ nodes.reverse,
      (fun n : WNode => decide (n.id = i)) n = true := by
    exact ⟨n0, List.mem_reverse.mpr hn0, by simp [hid]⟩
  obtain ⟨n, hfind⟩ := Option.isSome_iff_exists.mp
    (List.find?_isSome.mpr hex)
  exact ⟨n, hfind, List.mem_reverse.mp (List.mem_of_find?_eq_some hfind),
    by simpa using List.find?_some hfind⟩

/-- Membership in `dedupKeepLast`. -/
theorem mem_dedupKeepLast (i : JsId) (l : List JsId) :
    i ∈ dedupKeepLast l ↔ i ∈ l := by
  induction l with
  | nil => simp [dedupKeepLast]
  | cons a tl ih =>
    by_cases ha : a ∈ tl
    · simp only [dedupKeepLast, if_pos ha, ih, List.mem_cons]
      constructor
      · exact Or.inr
      · rintro (rfl | h)
        exacts [ha, h]
    · simp [dedupKeepLast, if_neg ha, ih]

/-- `dedupKeepLast` has no duplicates. -/
theorem nodup_dedupKeepLast (l : List JsId) : (dedupKeepLast l).Nodup := by
  induction l with
  | nil => exact List.nodup_nil
  | cons a tl ih =>
    by_cases ha : a ∈ tl
    · simpa [dedupKeepLast, if_pos ha] using ih
    · simp only [dedupKeepLast, if_neg ha, List.nodup_cons]
      exact ⟨fun hmem => ha ((mem_dedupKeepLast a tl).mp hmem), ih⟩

/-- Splitting a `countP` along a disjoint cover of its predicate. -/
theorem countP_split {α : Type} (l : List α) (p q r : α → Bool)
    (hcov : ∀ x ∈ l, p x = (q x || r x))
    (hdis : ∀ x ∈ l, ¬(q x = true ∧ r x = true)) :
    l.countP p = l.countP q + l.countP r := by
  induction l with
  | nil => rfl
  | cons a tl ih =>
    have hc := hcov a (by simp)
    have hd := hdis a (by simp)
    have htl := ih (fun x hx => hcov x (by simp [hx]))
      (fun x hx => hdis x (by simp [hx]))
    by_cases hq : q a = true
    · have hr : r a = false := by
        cases hrr : r a
        · rfl
        · exact absurd ⟨hq, hrr⟩ hd
      have hp : p a = true := by rw [hc, hq]; rfl
      simp [List.countP_cons, hp, hq, hr, htl]
      omega
    · have hqf : q a = false := by simpa using hq
      by_cases hr : r a = true
      · have hp : p a = true := by rw [hc, hqf, hr]; rfl
        simp [List.countP_cons, hp, hqf, hr, htl]
        omega
      · have hrf : r a = false := by simpa using hr
        have hp : p a = false := by rw [hc, hqf, hrf]; rfl
        simp [List.countP_cons, hp, hqf, hrf, htl]

/-- Behaviour of `processNext`: the in-degree function drops by the number
of occurrences of each id in the processed out-edge list, and exactly the
ids whose remaining degree reaches zero are looked up in the node map and
appended to the queue (once each, at their last occurrence). -/
theorem processNext_spec (nodes : List WNode) (t : JsId → Int)
    (ht : ∀ i, 0 ≤ t i) :
    ∀ (nexts : List JsId) (deg : JsId → Int) (q : List (Option WNode)),
    (∀ i, deg i = t i + (nexts.count i : Int)) →
    (processNext nodes nexts deg q).2
        = q ++ ((dedupKeepLast nexts).filter (fun i => t i = 0)).map
            (nodeMapFind nodes)
    ∧ ∀ i, (processNext nodes nexts deg q).1 i = t i := by
  intro nexts
  induction nexts with
  | nil =>
    intro deg q hd
    refine ⟨by simp [processNext, dedupKeepLast], fun i => ?_⟩
    have h := hd i
    simpa [processNext] using h
  | cons nid tl ih =>
    intro deg q hd
    have hcnt : deg nid = t nid + ((tl.count nid : Int) + 1) := by
      have h := hd nid
      rw [List.count_cons] at h
      simpa using h
    have hd2 : ∀ i, (fun i => if i = nid then deg i - 1 else deg i) i
        = t i + (tl.count i : Int) := by
      intro i
      by_cases hi : i = nid
      · subst hi
        simp only [if_pos rfl, hcnt]
        push_cast
        ring
      · have h := hd i
        rw [List.count_cons] at h
        have hb : (nid == i) = false := by
          simp [Ne.symm hi]
        rw [hb] at h
        simpa [if_neg hi] using h
    have hstep : processNext nodes (nid :: tl) deg q
        = processNext nodes tl
            (fun i => if i = nid then deg i - 1 else deg i)
            (if (if nid = nid then deg nid - 1 else deg nid) = 0
             then q ++ [nodeMapFind nodes nid] else q) := rfl
    by_cases ha : nid ∈ tl
    · have hpos : 0 < tl.count nid := List.count_pos_iff.mpr ha
      have hne : ¬ (if nid = nid then deg nid - 1 else deg nid) = 0 := by
        simp only [if_pos rfl, hcnt]
        have := ht nid
        omega
      rw [hstep, if_neg hne]
      have hdkl : dedupKeepLast (nid :: tl) = dedupKeepLast tl := by
        simp [dedupKeepLast, if_pos ha]
      rw [hdkl]
      exact ih _ q hd2
    · have hzero : tl.count nid = 0 := List.count_eq_zero.mpr ha
      have hcond : ((if nid = nid then deg nid - 1 else deg nid) = 0)
          ↔ t nid = 0 := by
        rw [if_pos rfl, hcnt, hzero]
        constructor <;> intro h <;> omega
      have hdkl : dedupKeepLast (nid :: tl)
          = nid :: dedupKeepLast tl := by
        simp [dedupKeepLast, if_neg ha]
      rw [hstep, hdkl]
      by_cases htn : t nid = 0
      · rw [if_pos (hcond.mpr htn)]
        obtain ⟨h1, h2⟩ := ih _ (q ++ [nodeMapFind nodes nid]) hd2
        refine ⟨?_, h2⟩
        rw [h1, List.filter_cons]
        simp only [htn]
        simp
      · rw [if_neg (fun hc => htn (hcond.mp hc))]
        obtain ⟨h1, h2⟩ := ih _ q hd2
        refine ⟨?_, h2⟩
        rw [h1, List.filter_cons]
        have : (decide (t nid = 0)) = false := by simpa using htn
        simp [this]

/-- `remDeg` as a `countP`. -/
theorem remDeg_eq_countP (conns : List WConn) (S : List JsId) (i : JsId) :
    remDeg conns S i
      = conns.countP (fun c => decide (c.destID = i ∧ c.sourceID ∉ S)) := by
  rw [remDeg, ← List.countP_eq_length_filter]

/-- Processing a source removes exactly its out-edges from the remaining
degree of every id. -/
theorem remDeg_split (conns : List WConn) (S : List JsId) (v : JsId)
    (hv : v ∉ S) (i : JsId) :
    remDeg conns S i
      = remDeg conns (S ++ [v]) i
        + ((conns.filter (fun c => c.sourceID = v)).map WConn.destID).count
            i := by
  rw [remDeg_eq_countP, remDeg_eq_countP, List.count_eq_countP,
    List.countP_map, List.countP_filter]
  exact countP_split conns _ _ _
    (fun c _ => by
      by_cases h1 : c.destID = i <;> by_cases h2 : c.sourceID ∈ S <;>
        by_cases h3 : c.sourceID = v <;>
        simp [h1, h2, h3, Function.comp] <;>
        first
          | (intro hmem; exact absurd hmem (by simp [h2, h3]))
          | (subst h3; exact absurd h2 hv)
          | exact hv
          | skip)
    (fun c _ => by
      rintro ⟨hq, hr⟩
      simp only [Bool.and_eq_true, beq_iff_eq, decide_eq_true_eq,
        Function.comp] at hq hr
      exact hq.2 (by simp [hr.2]))

/-- Weakening: remaining degree only drops as more sources are processed. -/
theorem remDeg_le_append (conns : List WConn) (S T : List JsId) (i : JsId) :
    remDeg conns (S ++ T) i ≤ remDeg conns S i := by
  rw [remDeg_eq_countP, remDeg_eq_countP]
  refine List.countP_mono_left (fun c _ => ?_)
  simp only [decide_eq_true_eq, and_imp]
  intro h1 h2
  exact ⟨h1, fun hmem => h2 (List.mem_append_left T hmem)⟩

/-- Queue ids of a list of successful node-map lookups. -/
theorem queueIds_map_nodeMapFind (nodes : List WNode) (l : List JsId)
    (hl : ∀ i ∈ l, i ∈ nodes.map WNode.id) :
    queueIds (l.map (nodeMapFind nodes)) = l := by
  induction l with
  | nil => rfl
  | cons a tl ih =>
    obtain ⟨n, hfind, _, hid⟩ := nodeMapFind_mem_id nodes a
      (hl a (by simp))
    simp only [List.map_cons, queueIds, List.filterMap_cons, hfind,
      Option.map_some']
    rw [hid]
    exact congrArg (a :: ·) (ih (fun i hi => hl i (by simp [hi])))

/-- One dequeue step preserves the loop invariant; moreover the new queue is
the old tail plus the node-map lookups of exactly the ids whose remaining
degree was exhausted by this node's out-edges — each declared, not seen
before, and enqueued once. -/
theorem kahnStep_inv (nodes : List WNode) (conns : List WConn)
    (hids : (nodes.map WNode.id).Nodup)
    (hdest : ∀ c ∈ conns, c.destID ∈ nodes.map WNode.id)
    (hnext : ∀ n ∈ nodes, n.nextNodes
      = (conns.filter (fun c => c.sourceID = n.id)).map WConn.destID)
    (current : WNode) (rest : List (Option WNode)) (deg : JsId → Int)
    (sorted : List WNode)
    (inv : KInv nodes conns (some current :: rest) deg sorted) :
    KInv nodes conns
      (processNext nodes current.nextNodes deg rest).2
      (processNext nodes current.nextNodes deg rest).1
      (sorted ++ [{ current with order := some sorted.length }])
    ∧ ∃ ef : List JsId,
        (processNext nodes current.nextNodes deg rest).2
          = rest ++ ef.map (nodeMapFind nodes)
        ∧ queueIds (processNext nodes current.nextNodes deg rest).2
          = queueIds rest ++ ef
        ∧ ef.Nodup
        ∧ ∀ i ∈ ef, i ∈ nodes.map WNode.id
          ∧ i ∉ sorted.map WNode.id
              ++ queueIds (some current :: rest) := by
  obtain ⟨ncur, hncurmem, hcur⟩ := inv.qdef (some current) (by simp)
  have hcurmem : current ∈ nodes := by
    injection hcur with h
    exact h ▸ hncurmem
  have hnexts := hnext current hcurmem
  have hqid : queueIds (some current :: rest)
      = current.id :: queueIds rest := rfl
  have hcurS : current.id ∉ sorted.map WNode.id := by
    have hnd := inv.nodup
    rw [hqid] at hnd
    intro hmem
    rcases List.nodup_append.mp hnd with ⟨_, _, hdisj⟩
    exact hdisj hmem (by simp)
  have hsplitN : ∀ i, remDeg conns (sorted.map WNode.id) i
      = remDeg conns (sorted.map WNode.id ++ [current.id]) i
        + current.nextNodes.count i := by
    intro i
    rw [hnexts]
    exact remDeg_split conns _ current.id hcurS i
  have hdegS2 : ∀ i, deg i
      = (fun j => (remDeg conns
            (sorted.map WNode.id ++ [current.id]) j : Int)) i
        + (current.nextNodes.count i : Int) := by
    intro i
    rw [inv.degEq i, hsplitN i]
    push_cast
    ring
  obtain ⟨hq2, hdg⟩ := processNext_spec nodes
    (fun j => (remDeg conns (sorted.map WNode.id ++ [current.id]) j : Int))
    (fun j => Int.natCast_nonneg _)
    current.nextNodes deg rest hdegS2
  have hEFiff : ∀ i,
      i ∈ (dedupKeepLast current.nextNodes).filter
          (fun j => ((remDeg conns
            (sorted.map WNode.id ++ [current.id]) j : Int) = 0))
        ↔ i ∈ current.nextNodes
          ∧ remDeg conns (sorted.map WNode.id ++ [current.id]) i = 0 := by
    intro i
    rw [List.mem_filter, mem_dedupKeepLast]
    simp
  have hEFdecl : ∀ i ∈ (dedupKeepLast current.nextNodes).filter
      (fun j => ((remDeg conns
        (sorted.map WNode.id ++ [current.id]) j : Int) = 0)),
      i ∈ nodes.map WNode.id := by
    intro i hi
    obtain ⟨hin, _⟩ := (hEFiff i).mp hi
    rw [hnexts] at hin
    obtain ⟨c, hc, rfl⟩ := List.mem_map.mp hin
    exact hdest c (List.mem_of_mem_filter hc)
  have hEFnotseen : ∀ i ∈ (dedupKeepLast current.nextNodes).filter
      (fun j => ((remDeg conns
        (sorted.map WNode.id ++ [current.id]) j : Int) = 0)),
      i ∉ sorted.map WNode.id ++ queueIds (some current :: rest) := by
    intro i hi hmem
    obtain ⟨hin, hzero⟩ := (hEFiff i).mp hi
    have hle := (inv.seenIff i (hEFdecl i hi)).mp hmem
    have hdegv := inv.degEq i
    have hcount : 0 < current.nextNodes.count i := List.count_pos_iff.mpr hin
    have hs := hsplitN i
    rw [hzero] at hs
    rw [hdegv] at hle
    omega
  have hEFnodup : ((dedupKeepLast current.nextNodes).filter
      (fun j => ((remDeg conns
        (sorted.map WNode.id ++ [current.id]) j : Int) = 0))).Nodup :=
    (nodup_dedupKeepLast _).filter _
  have hqids2 : queueIds (processNext nodes current.nextNodes deg rest).2
      = queueIds rest ++ (dedupKeepLast current.nextNodes).filter
          (fun j => ((remDeg conns
            (sorted.map WNode.id ++ [current.id]) j : Int) = 0)) := by
    rw [hq2]
    show (rest ++ _).filterMap _ = _
    rw [List.filterMap_append]
    exact congrArg (queueIds rest ++ ·)
      (queueIds_map_nodeMapFind nodes _ hEFdecl)
  have hS2 : (sorted ++ [{ current with order := some sorted.length }]).map
      WNode.id = sorted.map WNode.id ++ [current.id] := by
    rw [List.map_append]
    rfl
  have holdnodup : ((sorted.map WNode.id ++ [current.id])
      ++ queueIds rest).Nodup := by
    have hnd := inv.nodup
    rw [hqid] at hnd
    simpa [List.append_assoc] using hnd
  constructor
  · constructor
    · -- qdef
      intro o ho
      rw [hq2] at ho
      rcases List.mem_append.mp ho with h | h
      · exact inv.qdef o (by simp [h])
      · obtain ⟨i, hi, rfl⟩ := List.mem_map.mp h
        obtain ⟨n, hfind, hn, _⟩ := nodeMapFind_mem_id nodes i (hEFdecl i hi)
        exact ⟨n, hn, hfind⟩
    · -- smem
      intro m hm
      rcases List.mem_append.mp hm with h | h
      · exact inv.smem m h
      · have hm2 : m = { current with order := some sorted.length } := by
          simpa using h
        subst hm2
        exact ⟨current, hcurmem, rfl, rfl⟩
    · -- sord
      intro j h
      rcases Nat.lt_or_ge j sorted.length with hj | hj
      · rw [List.getElem_append_left hj]
        exact inv.sord j hj
      · have hlen : (sorted ++ [{ current with
            order := some sorted.length }]).length = sorted.length + 1 := by
          simp
        have hje : j = sorted.length := by
          rw [hlen] at h
          omega
        subst hje
        rw [List.getElem_concat_length _ _ _ rfl]
    · -- nodup
      rw [hS2, hqids2]
      rw [show (sorted.map WNode.id ++ [current.id])
          ++ (queueIds rest ++ (dedupKeepLast current.nextNodes).filter
            (fun j => ((remDeg conns
              (sorted.map WNode.id ++ [current.id]) j : Int) = 0)))
        = ((sorted.map WNode.id ++ [current.id]) ++ queueIds rest)
          ++ (dedupKeepLast current.nextNodes).filter
            (fun j => ((remDeg conns
              (sorted.map WNode.id ++ [current.id]) j : Int) = 0))
        from by simp [List.append_assoc]]
      rw [List.nodup_append]
      refine ⟨holdnodup, hEFnodup, ?_⟩
      intro i hi hif
      have hi2 : i ∈ sorted.map WNode.id ++ queueIds (some current :: rest) := by
        rw [hqid]
        rcases List.mem_append.mp hi with h | h
        · rcases List.mem_append.mp h with h2 | h2
          · exact List.mem_append_left _ h2
          · have : i = current.id := by simpa using h2
            subst this
            exact List.mem_append_right _ (by simp)
        · exact List.mem_append_right _ (by simp [h])
      exact hEFnotseen i hif hi2
    · -- degEq
      intro i
      rw [hdg i, hS2]
    · -- seenIff
      intro i hdecli
      rw [hS2, hqids2, hdg i]
      constructor
      · intro hmem
        have hseen0 : i ∈ sorted.map WNode.id
              ++ queueIds (some current :: rest)
            ∨ remDeg conns (sorted.map WNode.id ++ [current.id]) i = 0 := by
          rcases List.mem_append.mp hmem with h | h
          · rcases List.mem_append.mp h with h2 | h2
            · exact Or.inl (List.mem_append_left _ h2)
            · have hici : i = current.id := by simpa using h2
              subst hici
              refine Or.inl ?_
              rw [hqid]
              exact List.mem_append_right _ (by simp)
          · rcases List.mem_append.mp h with h2 | h2
            · refine Or.inl ?_
              rw [hqid]
              exact List.mem_append_right _ (by simp [h2])
            · exact Or.inr ((hEFiff i).mp h2).2
        rcases hseen0 with h | h
        · have hle := (inv.seenIff i hdecli).mp h
          rw [inv.degEq i] at hle
          have hs := hsplitN i
          have : remDeg conns (sorted.map WNode.id ++ [current.id]) i
              = 0 := by omega
          omega
        · omega
      · intro hle
        have hzero : remDeg conns
            (sorted.map WNode.id ++ [current.id]) i = 0 := by omega
        by_cases hin : i ∈ current.nextNodes
        · have : i ∈ (dedupKeepLast current.nextNodes).filter
              (fun j => ((remDeg conns
                (sorted.map WNode.id ++ [current.id]) j : Int) = 0)) :=
            (hEFiff i).mpr ⟨hin, hzero⟩
          exact List.mem_append_right _ (List.mem_append_right _ this)
        · have hcnt : current.nextNodes.count i = 0 :=
            List.count_eq_zero.mpr hin
          have hs := hsplitN i
          rw [hzero, hcnt] at hs
          have hseen := (inv.seenIff i hdecli).mpr
            (by rw [inv.degEq i, hs]; simp)
          rw [hqid] at hseen
          rcases List.mem_append.mp hseen with h | h
          · exact List.mem_append_left _ (List.mem_append_left _ h)
          · rcases List.mem_cons.mp h with h2 | h2
            · subst h2
              exact List.mem_append_left _ (by simp)
            · exact List.mem_append_right _ (List.mem_append_left _ h2)
    · -- ordInv
      intro c hc jt h hjt
      have hlen : (sorted ++ [{ current with
          order := some sorted.length }]).length = sorted.length + 1 := by
        simp
      rcases Nat.lt_or_ge jt sorted.length with hj | hj
      · rw [List.getElem_append_left hj] at hjt
        obtain ⟨js, hjs, hsid, hlt⟩ := inv.ordInv c hc jt hj hjt
        refine ⟨js, by simp; omega, ?_, by omega⟩
        rw [List.getElem_append_left hjs]
        exact hsid
      · have hje : jt = sorted.length := by
          rw [hlen] at h
          omega
        subst hje
        rw [List.getElem_concat_length _ _ _ rfl] at hjt
        have hidcur : current.id = c.destID := hjt
        have hseen := (inv.seenIff current.id
          (List.mem_map_of_mem WNode.id hcurmem)).mp
          (by rw [hqid]; exact List.mem_append_right _ (by simp))
        rw [inv.degEq current.id] at hseen
        have hrz : remDeg conns (sorted.map WNode.id) current.id = 0 := by
          omega
        rw [remDeg_eq_countP] at hrz
        have hnc := List.countP_eq_zero.mp hrz c hc
        simp only [decide_eq_true_eq] at hnc
        have hsrc : c.sourceID ∈ sorted.map WNode.id := by
          by_contra hns
          exact hnc ⟨hidcur.symm, hns⟩
        obtain ⟨js, hjs, hjsv⟩ := List.mem_iff_getElem.mp
          (by
            obtain ⟨m, hm, hmid⟩ := List.mem_map.mp hsrc
            exact List.mem_map.mpr ⟨m, hm, hmid⟩)
        refine ⟨js, ?_, ?_, ?_⟩
        · rw [List.length_map] at hjs
          omega
        · have hjs2 : js < sorted.length := by
            rw [List.length_map] at hjs
            exact hjs
          rw [List.getElem_append_left hjs2]
          rw [List.getElem_map] at hjsv
          exact hjsv
        · rw [List.length_map] at hjs
          omega
  · refine ⟨_, hq2, hqids2, hEFnodup, fun i hi => ⟨hEFdecl i hi,
      hEFnotseen i hi⟩⟩

/-- Transfer of a disjunctive cover to `decide` values. -/
theorem decide_cover {P Q R : Prop} [Decidable P] [Decidable Q] [Decidable R]
    (h : P ↔ Q ∨ R) : decide P = (decide Q || decide R) := by
  by_cases hq : Q <;> by_cases hr : R <;> simp [hq, hr, h]

/-- Counting declared nodes whose id lies in a duplicate-free sublist of the
declared ids. -/
theorem countP_id_mem (nodes : List WNode) (ef : List JsId)
    (hids : (nodes.map WNode.id).Nodup) (hnd : ef.Nodup)
    (hsub : ∀ i ∈ ef, i ∈ nodes.map WNode.id) :
    nodes.countP (fun n => n.id ∈ ef) = ef.length := by
  have h1 : nodes.countP (fun n => n.id ∈ ef)
      = (nodes.map WNode.id).countP (fun i => i ∈ ef) := by
    rw [List.countP_map]
    rfl
  rw [h1, List.countP_eq_length_filter]
  have hperm : List.Perm ((nodes.map WNode.id).filter (fun i => i ∈ ef))
      ef := by
    rw [List.perm_ext_iff_of_nodup (hids.filter _) hnd]
    intro i
    rw [List.mem_filter]
    constructor
    · rintro ⟨_, h⟩
      simpa using h
    · intro h
      exact ⟨hsub i h, by simpa using h⟩
  exact hperm.length_eq

/-- The Kahn loop terminates whenever the invariant holds and the fuel
exceeds the queue length plus the number of declared-but-unseen nodes; the
final state satisfies the invariant with an empty queue. -/
theorem kahnLoop_terminates (nodes : List WNode) (conns : List WConn)
    (hids : (nodes.map WNode.id).Nodup)
    (hdest : ∀ c ∈ conns, c.destID ∈ nodes.map WNode.id)
    (hnext : ∀ n ∈ nodes, n.nextNodes
      = (conns.filter (fun c => c.sourceID = n.id)).map WConn.destID) :
    ∀ (fuel : Nat) (q : List (Option WNode)) (deg : JsId → Int)
      (sorted : List WNode),
    KInv nodes conns q deg sorted →
    q.length + (nodes.filter (fun n =>
      n.id ∉ sorted.map WNode.id ++ queueIds q)).length < fuel →
    ∃ out degF, kahnLoop nodes fuel q deg sorted = .ok out
      ∧ KInv nodes conns [] degF out := by
  intro fuel
  induction fuel with
  | zero =>
    intro q deg sorted _ hf
    omega
  | succ f ih =>
    intro q deg sorted inv hf
    match q with
    | [] => exact ⟨sorted, deg, rfl, inv⟩
    | none :: rest =>
      obtain ⟨n, _, hcontra⟩ := inv.qdef none (by simp)
      cases hcontra
    | some current :: rest =>
      obtain ⟨inv2, ef, hq, hqids, hefnd, hefprops⟩ :=
        kahnStep_inv nodes conns hids hdest hnext current rest deg sorted inv
      have hgoal : kahnLoop nodes (f + 1) (some current :: rest) deg sorted
          = kahnLoop nodes f
            (processNext nodes current.nextNodes deg rest).2
            (processNext nodes current.nextNodes deg rest).1
            (sorted ++ [{ current with order := some sorted.length }]) := rfl
      rw [hgoal]
      apply ih _ _ _ inv2
      have hlen2 : (processNext nodes current.nextNodes deg rest).2.length
          = rest.length + ef.length := by
        rw [hq, List.length_append, List.length_map]
      have hS2 : (sorted ++ [{ current with
          order := some sorted.length }]).map WNode.id
          = sorted.map WNode.id ++ [current.id] := by
        rw [List.map_append]
        rfl
      have hmemequiv : ∀ i : JsId,
          i ∈ (sorted ++ [{ current with
              order := some sorted.length }]).map WNode.id
            ++ queueIds (processNext nodes current.nextNodes deg rest).2
          ↔ i ∈ sorted.map WNode.id ++ queueIds (some current :: rest)
            ∨ i ∈ ef := by
        intro i
        rw [hS2, hqids]
        show i ∈ _ ++ [current.id] ++ (_ ++ ef) ↔ _
        constructor
        · intro h
          rcases List.mem_append.mp h with h2 | h2
          · rcases List.mem_append.mp h2 with h3 | h3
            · exact Or.inl (List.mem_append_left _ h3)
            · refine Or.inl (List.mem_append_right _ ?_)
              show i ∈ queueIds (some current :: rest)
              have hie : i = current.id := by simpa using h3
              simp [queueIds, hie]
          · rcases List.mem_append.mp h2 with h3 | h3
            · refine Or.inl (List.mem_append_right _ ?_)
              show i ∈ queueIds (some current :: rest)
              simp [queueIds, List.filterMap_cons]
              right
              simpa [queueIds] using h3
            · exact Or.inr h3
        · intro h
          rcases h with h2 | h2
          · rcases List.mem_append.mp h2 with h3 | h3
            · exact List.mem_append_left _ (List.mem_append_left _ h3)
            · rcases List.mem_cons.mp h3 with h4 | h4
              · subst h4
                exact List.mem_append_left _ (by simp)
              · exact List.mem_append_right _ (List.mem_append_left _ h4)
          · exact List.mem_append_right _ (List.mem_append_right _ h2)
      have hcount : (nodes.filter (fun n =>
            n.id ∉ sorted.map WNode.id ++ queueIds (some current :: rest))).length
          = (nodes.filter (fun n =>
              n.id ∉ (sorted ++ [{ current with
                order := some sorted.length }]).map WNode.id
              ++ queueIds (processNext nodes current.nextNodes deg rest).2)).length
            + ef.length := by
        rw [← List.countP_eq_length_filter, ← List.countP_eq_length_filter]
        rw [countP_split nodes _
          (fun n => decide (n.id ∉ (sorted ++ [{ current with
            order := some sorted.length }]).map WNode.id
            ++ queueIds (processNext nodes current.nextNodes deg rest).2))
          (fun n => decide (n.id ∈ ef)),
          countP_id_mem nodes ef hids hefnd (fun i hi => (hefprops i hi).1)]
        · intro n _
          refine decide_cover ?_
          constructor
          · intro hno
            by_cases h1 : n.id ∈ ef
            · exact Or.inr h1
            · refine Or.inl (fun hmem => ?_)
              rcases (hmemequiv n.id).mp hmem with h4 | h4
              · exact hno h4
              · exact h1 h4
          · rintro (hq2 | hr2)
            · exact fun hmem => hq2 ((hmemequiv n.id).mpr (Or.inl hmem))
            · exact (hefprops _ hr2).2
        · intro n _
          rintro ⟨hq2, hr2⟩
          simp only [decide_eq_true_eq] at hq2 hr2
          exact hq2 ((hmemequiv n.id).mpr (Or.inr hr2))
      have hrest : (some current :: rest).length = rest.length + 1 := by
        simp
      rw [hlen2]
      omega

/-- Queue ids of a seeded queue. -/
theorem queueIds_map_some (l : List WNode) :
    queueIds (l.map some) = l.map WNode.id := by
  show (l.map some).filterMap _ = _
  rw [List.filterMap_map]
  exact List.filterMap_eq_map WNode.id ▸ rfl

/-- The invariant holds at loop entry: empty sorted list, seeded queue, raw
in-degrees. -/
theorem kahnInit_inv (nodes : List WNode) (conns : List WConn)
    (hids : (nodes.map WNode.id).Nodup) :
    KInv nodes conns
      ((nodes.filter (fun n => initInDegree conns n.id = 0)).map some)
      (initInDegree conns) [] := by
  have hq0 : queueIds ((nodes.filter
        (fun n => initInDegree conns n.id = 0)).map some)
      = (nodes.filter (fun n => initInDegree conns n.id = 0)).map WNode.id :=
    queueIds_map_some _
  constructor
  · intro o ho
    obtain ⟨n, hn, rfl⟩ := List.mem_map.mp ho
    exact ⟨n, List.mem_of_mem_filter hn, rfl⟩
  · intro m hm
    exact absurd hm (List.not_mem_nil m)
  · intro j h
    exact absurd h (Nat.not_lt_zero j)
  · simp only [List.map_nil, List.nil_append, hq0]
    exact hids.sublist ((List.filter_sublist _).map WNode.id)
  · intro i
    rw [initInDegree, remDeg]
    norm_cast
    apply congrArg
    apply List.filter_congr
    intro c _
    simp
  · intro i hdecl
    simp only [List.map_nil, List.nil_append, hq0]
    constructor
    · intro hmem
      obtain ⟨n, hn, hid⟩ := List.mem_map.mp hmem
      have hp := List.of_mem_filter hn
      simp only [decide_eq_true_eq] at hp
      rw [← hid]
      omega
    · intro hle
      have hge : (0 : Int) ≤ initInDegree conns i := by
        rw [initInDegree]
        exact_mod_cast Nat.zero_le _
      have hz : initInDegree conns i = 0 := le_antisymm hle hge
      obtain ⟨n, hn, hid⟩ := List.mem_map.mp hdecl
      refine List.mem_map.mpr ⟨n, List.mem_filter.mpr ⟨hn, ?_⟩, hid⟩
      simp only [decide_eq_true_eq]
      rw [hid]
      exact hz
  · intro c hc jt h
    exact absurd h (Nat.not_lt_zero jt)

/-- `buildGraph` succeeds on well-formed graphs (distinct declared ids,
every connection destination declared), returning the connections unchanged
and a sorted node list satisfying the final invariant. -/
theorem buildGraph_ok (nodes0 : List WNode) (conns : List WConn)
    (hids0 : (nodes0.map WNode.id).Nodup)
    (hdest : ∀ c ∈ conns, c.destID ∈ nodes0.map WNode.id) :
    ∃ r degF, buildGraph nodes0 conns = .ok r ∧ r.connections = conns
      ∧ KInv (fillNextNodes nodes0 conns) conns [] degF r.nodes := by
  have hidsF : ((fillNextNodes nodes0 conns).map WNode.id).Nodup := by
    rw [fillNextNodes_map_id]
    exact hids0
  have hdestF : ∀ c ∈ conns, c.destID
      ∈ (fillNextNodes nodes0 conns).map WNode.id := by
    rw [fillNextNodes_map_id]
    exact hdest
  have hnextF := fillNextNodes_nextNodes nodes0 conns hids0
  obtain ⟨out, degF, hloop, hfin⟩ := kahnLoop_terminates
    (fillNextNodes nodes0 conns) conns hidsF hdestF hnextF
    (kahnFuel (fillNextNodes nodes0 conns) conns)
    ((fillNextNodes nodes0 conns).filter
      (fun n => initInDegree conns n.id = 0) |>.map some)
    (initInDegree conns) []
    (kahnInit_inv (fillNextNodes nodes0 conns) conns hidsF)
    (by
      rw [kahnFuel]
      have h1 := List.length_filter_le
        (fun n => decide (initInDegree conns n.id = 0))
        (fillNextNodes nodes0 conns)
      have h2 := List.length_filter_le
        (fun n => decide (n.id ∉ ([] : List WNode).map WNode.id
          ++ queueIds (((fillNextNodes nodes0 conns).filter
            (fun n => initInDegree conns n.id = 0)).map some)))
        (fillNextNodes nodes0 conns)
      rw [List.length_map]
      omega)
  refine ⟨⟨out, conns⟩, degF, ?_, rfl, hfin⟩
  simp only [buildGraph, hloop]

/-- At the end of the loop the sorted ids are duplicate-free. -/
theorem final_out_nodup (nodes : List WNode) (conns : List WConn)
    (degF : JsId → Int) (out : List WNode)
    (hfin : KInv nodes conns [] degF out) :
    (out.map WNode.id).Nodup := by
  have h := hfin.nodup
  simpa [queueIds] using h

/-- Sorted ids are declared ids. -/
theorem out_ids_subset (nodes : List WNode) (conns : List WConn)
    (degF : JsId → Int) (out : List WNode)
    (hfin : KInv nodes conns [] degF out) :
    ∀ i ∈ out.map WNode.id, i ∈ nodes.map WNode.id := by
  intro i hi
  obtain ⟨m, hm, hid⟩ := List.mem_map.mp hi
  obtain ⟨n, hn, hid2, _⟩ := hfin.smem m hm
  exact List.mem_map.mpr ⟨n, hn, by rw [← hid2, hid]⟩

/-- The final seen-iff: a declared id was sorted exactly when its remaining
degree (over the sorted sources) is zero. -/
theorem final_seen_iff (nodes : List WNode) (conns : List WConn)
    (degF : JsId → Int) (out : List WNode)
    (hfin : KInv nodes conns [] degF out) :
    ∀ i ∈ nodes.map WNode.id,
      (i ∈ out.map WNode.id ↔ remDeg conns (out.map WNode.id) i = 0) := by
  intro i hdecl
  have hiff := hfin.seenIff i hdecl
  have hde := hfin.degEq i
  have happ : out.map WNode.id ++ queueIds [] = out.map WNode.id := by
    simp [queueIds]
  rw [happ] at hiff
  rw [hiff, hde]
  constructor <;> intro h <;> omega

/-- A missing node: if any connection into `i` has an unsorted source, `i`
is unsorted. -/
theorem unsorted_of_unsorted_source (nodes : List WNode) (conns : List WConn)
    (degF : JsId → Int) (out : List WNode)
    (hfin : KInv nodes conns [] degF out)
    (c : WConn) (hc : c ∈ conns)
    (hdecl : c.destID ∈ nodes.map WNode.id)
    (hs : c.sourceID ∉ out.map WNode.id) :
    c.destID ∉ out.map WNode.id := by
  intro hmem
  have hz := (final_seen_iff nodes conns degF out hfin c.destID hdecl).mp hmem
  rw [remDeg_eq_countP] at hz
  have := List.countP_eq_zero.mp hz c hc
  simp only [decide_eq_true_eq] at this
  exact this ⟨by trivial, hs⟩

/-- Edge ordering on the final sorted list: below every position holding a
connection's destination there is an earlier position holding its source. -/
theorem sorted_edge_lt (nodes : List WNode) (conns : List WConn)
    (degF : JsId → Int) (out : List WNode)
    (hfin : KInv nodes conns [] degF out)
    (a b : JsId) (hedge : connEdge conns a b) :
    ∀ (jb : Nat) (h : jb < out.length), (out[jb]).id = b →
      ∃ ja, ∃ h2 : ja < out.length, (out[ja]).id = a ∧ ja < jb := by
  obtain ⟨c, hc, hsrc, hdst⟩ := hedge
  intro jb h hb
  obtain ⟨js, hjs, hjsid, hjslt⟩ := hfin.ordInv c hc jb h (by rw [hb, hdst])
  exact ⟨js, hjs, by rw [hjsid, hsrc], hjslt⟩

/-- Path ordering on the final sorted list, by transitivity. -/
theorem sorted_chain_lt (nodes : List WNode) (conns : List WConn)
    (degF : JsId → Int) (out : List WNode)
    (hfin : KInv nodes conns [] degF out)
    (a b : JsId) (htg : Relation.TransGen (connEdge conns) a b) :
    ∀ (jb : Nat) (h : jb < out.length), (out[jb]).id = b →
      ∃ ja, ∃ h2 : ja < out.length, (out[ja]).id = a ∧ ja < jb := by
  induction htg with
  | single h1 => exact sorted_edge_lt nodes conns degF out hfin _ _ h1
  | tail htg1 hedge ih =>
    intro jc h hcid
    obtain ⟨jb, hjb, hjbid, hjblt⟩ :=
      sorted_edge_lt nodes conns degF out hfin _ _ hedge jc h hcid
    obtain ⟨ja, hja, hjaid, hjalt⟩ := ih jb hjb hjbid
    exact ⟨ja, hja, hjaid, by omega⟩

/-- A node lying on a directed cycle never appears in the sorted output. -/
theorem cycle_not_sorted (nodes : List WNode) (conns : List WConn)
    (degF : JsId → Int) (out : List WNode)
    (hfin : KInv nodes conns [] degF out)
    (n : JsId) (hcyc : Relation.TransGen (connEdge conns) n n) :
    n ∉ out.map WNode.id := by
  intro hmem
  obtain ⟨j0, hj0, hj0id⟩ : ∃ j, ∃ h : j < out.length, (out[j]).id = n := by
    obtain ⟨m, hm, hmid⟩ := List.mem_map.mp hmem
    obtain ⟨j, hj, hjv⟩ := List.mem_iff_getElem.mp hm
    exact ⟨j, hj, by rw [hjv, hmid]⟩
  clear hmem
  induction j0 using Nat.strong_induction_on with
  | _ j0 ih =>
    obtain ⟨ja, hja, hjaid, hjalt⟩ :=
      sorted_chain_lt nodes conns degF out hfin n n hcyc j0 hj0 hj0id
    exact ih ja hjalt hja hjaid

/-- Nodes reachable from a cycle node never appear in the sorted output. -/
theorem cycle_downstream_not_sorted (nodes : List WNode) (conns : List WConn)
    (degF : JsId → Int) (out : List WNode)
    (hfin : KInv nodes conns [] degF out)
    (n : JsId) (hcyc : Relation.TransGen (connEdge conns) n n)
    (m : JsId) (hreach : Relation.TransGen (connEdge conns) n m) :
    m ∉ out.map WNode.id := by
  intro hmem
  obtain ⟨jm, hjm, hjmid⟩ : ∃ j, ∃ h : j < out.length, (out[j]).id = m := by
    obtain ⟨x, hx, hxid⟩ := List.mem_map.mp hmem
    obtain ⟨j, hj, hjv⟩ := List.mem_iff_getElem.mp hx
    exact ⟨j, hj, by rw [hjv, hxid]⟩
  obtain ⟨jn, hjn, hjnid, _⟩ :=
    sorted_chain_lt nodes conns degF out hfin n m hreach jm hjm hjmid
  exact cycle_not_sorted nodes conns degF out hfin n hcyc
    (List.mem_map.mpr ⟨out[jn], List.getElem_mem hjn, hjnid⟩)

/-- Strictly fewer sorted nodes than declared nodes when a declared id is
missing from the sorted output. -/
theorem out_length_lt (nodes : List WNode) (conns : List WConn)
    (degF : JsId → Int) (out : List WNode)
    (hfin : KInv nodes conns [] degF out)
    (hids : (nodes.map WNode.id).Nodup)
    (i : JsId) (hi : i ∈ nodes.map WNode.id) (hni : i ∉ out.map WNode.id) :
    out.length < nodes.length := by
  have hnd := final_out_nodup nodes conns degF out hfin
  have hsub := out_ids_subset nodes conns degF out hfin
  have hnodup2 : (i :: out.map WNode.id).Nodup := List.nodup_cons.mpr ⟨hni, hnd⟩
  have hsub2 : i :: out.map WNode.id ⊆ nodes.map WNode.id := by
    intro x hx
    rcases List.mem_cons.mp hx with rfl | hx2
    · exact hi
    · exact hsub x hx2
  have hsp := List.subperm_of_subset hnodup2 hsub2
  have hlen := hsp.length_le
  simp only [List.length_cons, List.length_map] at hlen
  omega

/-- Completeness of the sort: in an acyclic graph whose connection
endpoints are all declared, every declared node is sorted. -/
theorem kahn_complete (nodes : List WNode) (conns : List WConn)
    (degF : JsId → Int) (out : List WNode)
    (hfin : KInv nodes conns [] degF out)
    (hsrc : ∀ c ∈ conns, c.sourceID ∈ nodes.map WNode.id)
    (hacyc : ∀ i, ¬ Relation.TransGen (connEdge conns) i i) :
    ∀ i ∈ nodes.map WNode.id, i ∈ out.map WNode.id := by
  haveI hfinD : Finite {i : JsId // i ∈ nodes.map WNode.id} :=
    (List.finite_toSet (nodes.map WNode.id)).to_subtype
  haveI : IsTrans {i : JsId // i ∈ nodes.map WNode.id}
      (fun a b => Relation.TransGen (connEdge conns) a.1 b.1) :=
    ⟨fun _ _ _ hab hbc => hab.trans hbc⟩
  haveI : IsIrrefl {i : JsId // i ∈ nodes.map WNode.id}
      (fun a b => Relation.TransGen (connEdge conns) a.1 b.1) :=
    ⟨fun a h => hacyc a.1 h⟩
  have hwfT : WellFounded (fun a b : {i : JsId // i ∈ nodes.map WNode.id} =>
      Relation.TransGen (connEdge conns) a.1 b.1) :=
    Finite.wellFounded_of_trans_of_irrefl _
  have hwf1 : WellFounded (fun a b : {i : JsId // i ∈ nodes.map WNode.id} =>
      connEdge conns a.1 b.1) :=
    Subrelation.wf (fun h => Relation.TransGen.single h) hwfT
  have main : ∀ d : {i : JsId // i ∈ nodes.map WNode.id},
      d.1 ∈ out.map WNode.id := by
    intro d
    refine @WellFounded.induction _ _ hwf1
      (fun d => d.1 ∈ out.map WNode.id) d ?_
    intro x ihx
    have hz : remDeg conns (out.map WNode.id) x.1 = 0 := by
      rw [remDeg_eq_countP, List.countP_eq_zero]
      intro c hc
      simp only [decide_eq_true_eq]
      rintro ⟨hdst, hnsrc⟩
      have hsd : c.sourceID ∈ nodes.map WNode.id := hsrc c hc
      have hres := ihx ⟨c.sourceID, hsd⟩ ⟨c, hc, rfl, hdst⟩
      exact hnsrc hres
    exact (final_seen_iff nodes conns degF out hfin x.1 x.2).mpr hz
  intro i hi
  exact main ⟨i, hi⟩

/-- `fillNextNodes` preserves length. -/
theorem fillNextNodes_length (ns : List WNode) (cs : List WConn) :
    (fillNextNodes ns cs).length = ns.length := by
  induction ns with
  | nil => rfl
  | cons n tl ih => simp [fillNextNodes, ih]

/-- `parseWorkflowKnime` through successful block extraction. -/
theorem parseWorkflowKnime_eq_buildGraph (w : WorkflowJson)
    (ncs ccs : List ConfigNode)
    (hpb : parseBlocks w.config = .ok (ncs, ccs)) :
    parseWorkflowKnime w
      = buildGraph (ncs.map mkWNode) (ccs.map mkWConn) := by
  simp only [parseWorkflowKnime, hpb]

/-- C1: for every workflow whose declared node ids are distinct, whose
connection endpoints are all declared, and whose connection graph is acyclic
(no id reaches itself through the edges), the topological sort performed by
`parseWorkflowKnime` assigns every declared node an order value, and for
every connection `(s, t)` the order of `s` is strictly below the order of
`t`. -/
theorem C1_topological_order (w : WorkflowJson) (ncs ccs : List ConfigNode)
    (hpb : parseBlocks w.config = .ok (ncs, ccs))
    (hids : ((ncs.map mkWNode).map WNode.id).Nodup)
    (hends : ∀ c ∈ ccs.map mkWConn,
      c.sourceID ∈ (ncs.map mkWNode).map WNode.id
      ∧ c.destID ∈ (ncs.map mkWNode).map WNode.id)
    (hacyc : ∀ i, ¬ Relation.TransGen (connEdge (ccs.map mkWConn)) i i) :
    ∃ r, parseWorkflowKnime w = .ok r
      ∧ r.connections = ccs.map mkWConn
      ∧ (∀ i ∈ (ncs.map mkWNode).map WNode.id,
          ∃ m ∈ r.nodes, m.id = i ∧ m.order ≠ none)
      ∧ (∀ c ∈ r.connections, ∃ ms ∈ r.nodes, ∃ mt ∈ r.nodes,
          ms.id = c.sourceID ∧ mt.id = c.destID
          ∧ ∃ os ot : Nat, ms.order = some os ∧ mt.order = some ot
            ∧ os < ot) := by
  obtain ⟨r, degF, hok, hrc, hfin⟩ := buildGraph_ok (ncs.map mkWNode)
    (ccs.map mkWConn) hids (fun c hc => (hends c hc).2)
  have hmapid : (fillNextNodes (ncs.map mkWNode) (ccs.map mkWConn)).map
      WNode.id = (ncs.map mkWNode).map WNode.id :=
    fillNextNodes_map_id _ _
  have hcomp := kahn_complete _ _ degF r.nodes hfin
    (fun c hc => by rw [hmapid]; exact (hends c hc).1) hacyc
  refine ⟨r, ?_, hrc, ?_, ?_⟩
  · rw [parseWorkflowKnime_eq_buildGraph w ncs ccs hpb]
    exact hok
  · intro i hi
    have hi2 : i ∈ r.nodes.map WNode.id := hcomp i (by rw [hmapid]; exact hi)
    obtain ⟨m, hm, hmid⟩ := List.mem_map.mp hi2
    obtain ⟨j, hj, hjv⟩ := List.mem_iff_getElem.mp hm
    have hord := hfin.sord j hj
    rw [hjv] at hord
    refine ⟨m, hm, hmid, ?_⟩
    rw [hord]
    exact Option.some_ne_none j
  · intro c hc
    rw [hrc] at hc
    have hdd : c.destID ∈ r.nodes.map WNode.id := hcomp c.destID
      (by rw [hmapid]; exact (hends c hc).2)
    obtain ⟨mt0, hmt0, hmtid⟩ := List.mem_map.mp hdd
    obtain ⟨jt, hjt, hjtv⟩ := List.mem_iff_getElem.mp hmt0
    have hjtid : (r.nodes[jt]).id = c.destID := by
      rw [hjtv]
      exact hmtid
    obtain ⟨js, hjs, hjsid, hjslt⟩ := hfin.ordInv c hc jt hjt hjtid
    exact ⟨r.nodes[js], List.getElem_mem hjs, r.nodes[jt],
      List.getElem_mem hjt, hjsid, hjtid, js, jt, hfin.sord js hjs,
      hfin.sord jt hjt, hjslt⟩

/-- The edges of the single connection 1 → 2. -/
theorem acyclic_edge_shape :
    ∀ s t, connEdge ([connCfg "1" "2"].map mkWConn) s t →
      s = some 1 ∧ t = some 2 := by
  rintro s t ⟨c, hc, hs, ht⟩
  have hcv : c = mkWConn (connCfg "1" "2") := by simpa using hc
  subst hcv
  refine ⟨?_, ?_⟩
  · rw [← hs]
    rfl
  · rw [← ht]
    rfl

/-- Witness for C1 at the concrete acyclic workflow (nodes 1, 2 and the
connection 1 → 2). -/
theorem C1_topological_order_witness :
    ∃ r, parseWorkflowKnime acyclicWorkflow = .ok r
      ∧ r.connections
        = [connCfg "1" "2"].map mkWConn
      ∧ (∀ i ∈ (([nodeCfg "1", nodeCfg "2"]).map mkWNode).map WNode.id,
          ∃ m ∈ r.nodes, m.id = i ∧ m.order ≠ none)
      ∧ (∀ c ∈ r.connections, ∃ ms ∈ r.nodes, ∃ mt ∈ r.nodes,
          ms.id = c.sourceID ∧ mt.id = c.destID
          ∧ ∃ os ot : Nat, ms.order = some os ∧ mt.order = some ot
            ∧ os < ot) := by
  refine C1_topological_order acyclicWorkflow
    [nodeCfg "1", nodeCfg "2"] [connCfg "1" "2"] rfl (by decide)
    (by decide) ?_
  intro i hcyc
  have hends : ∀ a b, Relation.TransGen
      (connEdge ([connCfg "1" "2"].map mkWConn)) a b →
      a = some 1 ∧ b = some 2 := by
    intro a b htg
    induction htg with
    | single h1 => exact acyclic_edge_shape _ _ h1
    | tail htg1 hedge ih =>
      have h2 := acyclic_edge_shape _ _ hedge
      have h3 := ih.2
      rw [h3] at h2
      exact absurd h2.1 (by decide)
  obtain ⟨h1, h2⟩ := hends i i hcyc
  rw [h1] at h2
  exact absurd h2 (by decide)

/-- Counterexample to C2: on the cyclic workflow 1 → 2 → 1 the parser
returns an empty node list — the cycle nodes are silently dropped from the
result (only a console warning is emitted); no node appears in the output
flagged as unresolved, contradicting the claim that every cycle node appears
in the final output. -/
theorem C2_counterexample :
    parseWorkflowKnime cyclicWorkflow
      = .ok ⟨[], [⟨some 1, some 2⟩, ⟨some 2, some 1⟩]⟩
    ∧ ¬ ∃ m ∈ (⟨[], [⟨some 1, some 2⟩, ⟨some 2, some 1⟩]⟩
        : ParseResult).nodes, m.id = some 1 := by
  refine ⟨rfl, ?_⟩
  rintro ⟨m, hm, _⟩
  exact absurd hm (List.not_mem_nil m)

/-- C2 (amended): for a well-formed workflow (distinct declared ids, all
connection destinations declared) containing a declared node `n` on a
directed cycle, the parser still returns a result, the number of ordered
nodes is strictly below the declared node count, and `n` — as well as every
node reachable from `n` — is omitted from the returned node list (it is
dropped, not flagged). -/
theorem C2_amended_cycle_nodes_dropped (w : WorkflowJson)
    (ncs ccs : List ConfigNode)
    (hpb : parseBlocks w.config = .ok (ncs, ccs))
    (hids : ((ncs.map mkWNode).map WNode.id).Nodup)
    (hdest : ∀ c ∈ ccs.map mkWConn,
      c.destID ∈ (ncs.map mkWNode).map WNode.id)
    (n : JsId) (hn : n ∈ (ncs.map mkWNode).map WNode.id)
    (hcyc : Relation.TransGen (connEdge (ccs.map mkWConn)) n n) :
    ∃ r, parseWorkflowKnime w = .ok r
      ∧ r.nodes.length < (ncs.map mkWNode).length
      ∧ n ∉ r.nodes.map WNode.id
      ∧ ∀ m, Relation.TransGen (connEdge (ccs.map mkWConn)) n m →
          m ∉ r.nodes.map WNode.id := by
  obtain ⟨r, degF, hok, hrc, hfin⟩ := buildGraph_ok (ncs.map mkWNode)
    (ccs.map mkWConn) hids hdest
  have hmapid : (fillNextNodes (ncs.map mkWNode) (ccs.map mkWConn)).map
      WNode.id = (ncs.map mkWNode).map WNode.id :=
    fillNextNodes_map_id _ _
  have hnots := cycle_not_sorted _ _ degF r.nodes hfin n hcyc
  refine ⟨r, ?_, ?_, hnots, ?_⟩
  · rw [parseWorkflowKnime_eq_buildGraph w ncs ccs hpb]
    exact hok
  · have hlt := out_length_lt _ _ degF r.nodes hfin
      (by rw [hmapid]; exact hids) n (by rw [hmapid]; exact hn) hnots
    rw [fillNextNodes_length] at hlt
    exact hlt
  · intro m hreach
    exact cycle_downstream_not_sorted _ _ degF r.nodes hfin n hcyc m hreach

/-- Witness for C2 (amended) at the concrete cyclic workflow. -/
theorem C2_amended_cycle_nodes_dropped_witness :
    ∃ r, parseWorkflowKnime cyclicWorkflow = .ok r
      ∧ r.nodes.length
        < (([nodeCfg "1", nodeCfg "2"]).map mkWNode).length
      ∧ (some 1 : JsId) ∉ r.nodes.map WNode.id
      ∧ ∀ m, Relation.TransGen
          (connEdge ([connCfg "1" "2", connCfg "2" "1"].map mkWConn))
          (some 1) m →
          m ∉ r.nodes.map WNode.id := by
  refine C2_amended_cycle_nodes_dropped cyclicWorkflow
    [nodeCfg "1", nodeCfg "2"] [connCfg "1" "2", connCfg "2" "1"] rfl
    (by decide) (by decide) (some 1) (by decide) ?_
  have h12 : connEdge ([connCfg "1" "2", connCfg "2" "1"].map mkWConn)
      (some 1) (some 2) := ⟨⟨some 1, some 2⟩, by decide, rfl, rfl⟩
  have h21 : connEdge ([connCfg "1" "2", connCfg "2" "1"].map mkWConn)
      (some 2) (some 1) := ⟨⟨some 2, some 1⟩, by decide, rfl, rfl⟩
  exact Relation.TransGen.tail (Relation.TransGen.single h12) h21

/-- Counterexample to C6: a workflow JSON without a root config makes
`parseWorkflowKnime` throw instead of producing a best-effort result. -/
theorem C6_counterexample :
    parseWorkflowKnime ⟨.absent⟩
      = .error "Invalid workflow JSON: Missing root config." := rfl

/-- C6 (amended): the resolver throws for a missing root config, nodes
block or connections block (and crashes on a reachable undeclared
destination); but when block extraction succeeds, the declared ids are
distinct and every connection destination is declared, it never throws —
it returns a best-effort result (even for cyclic graphs). -/
theorem C6_amended_no_throw (w : WorkflowJson) (ncs ccs : List ConfigNode)
    (hpb : parseBlocks w.config = .ok (ncs, ccs))
    (hids : ((ncs.map mkWNode).map WNode.id).Nodup)
    (hdest : ∀ c ∈ ccs.map mkWConn,
      c.destID ∈ (ncs.map mkWNode).map WNode.id) :
    ∃ r, parseWorkflowKnime w = .ok r := by
  obtain ⟨r, degF, hok, _, _⟩ := buildGraph_ok (ncs.map mkWNode)
    (ccs.map mkWConn) hids hdest
  refine ⟨r, ?_⟩
  rw [parseWorkflowKnime_eq_buildGraph w ncs ccs hpb]
  exact hok

/-- Witness for C6 (amended): the cyclic workflow parses without throwing. -/
theorem C6_amended_no_throw_witness :
    ∃ r, parseWorkflowKnime cyclicWorkflow = .ok r :=
  C6_amended_no_throw cyclicWorkflow [nodeCfg "1", nodeCfg "2"]
    [connCfg "1" "2", connCfg "2" "1"] rfl (by decide) (by decide)

/-- Counterexample to C7: a connection whose destination id is undeclared
but reachable crashes the topological sort with a `TypeError` — the
resolver neither reports a dangling-edge diagnostic nor survives the edge.
-/
theorem C7_counterexample :
    parseWorkflowKnime danglingDestWorkflow
      = .error
        "TypeError: Cannot set properties of undefined (setting 'order')" :=
  rfl

/-- C7 (amended): a connection with an undeclared source id is skipped
silently — no diagnostic is attached; its destination keeps a positive
in-degree, is never ordered and is dropped from the returned node list
(while an undeclared reachable destination crashes the sort, as the
counterexample shows). -/
theorem C7_amended_dangling_edges (w : WorkflowJson)
    (ncs ccs : List ConfigNode)
    (hpb : parseBlocks w.config = .ok (ncs, ccs))
    (hids : ((ncs.map mkWNode).map WNode.id).Nodup)
    (hdest : ∀ c ∈ ccs.map mkWConn,
      c.destID ∈ (ncs.map mkWNode).map WNode.id)
    (c0 : WConn) (hc0 : c0 ∈ ccs.map mkWConn)
    (hsrc : c0.sourceID ∉ (ncs.map mkWNode).map WNode.id) :
    ∃ r, parseWorkflowKnime w = .ok r
      ∧ c0.destID ∉ r.nodes.map WNode.id
      ∧ r.nodes.length < (ncs.map mkWNode).length := by
  obtain ⟨r, degF, hok, hrc, hfin⟩ := buildGraph_ok (ncs.map mkWNode)
    (ccs.map mkWConn) hids hdest
  have hmapid : (fillNextNodes (ncs.map mkWNode) (ccs.map mkWConn)).map
      WNode.id = (ncs.map mkWNode).map WNode.id :=
    fillNextNodes_map_id _ _
  have hsrcout : c0.sourceID ∉ r.nodes.map WNode.id := by
    intro hmem
    have := out_ids_subset _ _ degF r.nodes hfin c0.sourceID hmem
    rw [hmapid] at this
    exact hsrc this
  have hdd := unsorted_of_unsorted_source _ _ degF r.nodes hfin c0 hc0
    (by rw [hmapid]; exact hdest c0 hc0) hsrcout
  refine ⟨r, ?_, hdd, ?_⟩
  · rw [parseWorkflowKnime_eq_buildGraph w ncs ccs hpb]
    exact hok
  · have hlt := out_length_lt _ _ degF r.nodes hfin
      (by rw [hmapid]; exact hids) c0.destID
      (by rw [hmapid]; exact hdest c0 hc0) hdd
    rw [fillNextNodes_length] at hlt
    exact hlt

/-- Witness for C7 (amended): node 2 with a connection from the undeclared
node 1 parses without error, and node 2 is silently missing from the
output. -/
theorem C7_amended_dangling_edges_witness :
    ∃ r, parseWorkflowKnime danglingSourceWorkflow = .ok r
      ∧ (some 2 : JsId) ∉ r.nodes.map WNode.id
      ∧ r.nodes.length < (([nodeCfg "2"]).map mkWNode).length := by
  have h := C7_amended_dangling_edges danglingSourceWorkflow
    [nodeCfg "2"] [connCfg "1" "2"] rfl (by decide) (by decide)
    ⟨some 1, some 2⟩ (by decide) (by decide)
  simpa using h
